import Mathlib

/-!
Shallow embedding of the segregated-storage pool allocator.

Memory addresses are modelled as natural numbers.  The free list threaded
through the free chunks themselves is modelled as the list of free-chunk
addresses in list order; the BlockList threaded through the block trailers is
modelled as the list of blocks in list order.  Each C function that touches
these structures is translated to a Lean function on the list model.
-/

namespace PoolAlloc

/-- Compile-time parameters of a `pool<Allocator, RequestedSize>` instantiation:
`RequestedSize`, `sizeof(size_type)`, `min_alloc_size = lcm(sizeof(void_pointer),
sizeof(size_type))` and `min_align = lcm(alignof(void_pointer), alignof(size_type))`.
The latter three are kept abstract, as the source computes them from the host
platform's type sizes. -/
structure Cfg where
  requested_size : Nat
  size_size : Nat
  min_alloc_size : Nat
  min_align : Nat
deriving DecidableEq, Repr

/-- Sanity of the platform constants: all sizes are positive, as they are for
every C++ platform instantiation (`sizeof`/`alignof`/`lcm` of real types). -/
def Cfg.ok (cfg : Cfg) : Prop :=
  0 < cfg.requested_size ∧ 0 < cfg.size_size ∧
  0 < cfg.min_alloc_size ∧ 0 < cfg.min_align

/-- `fast_ceil_division`: `numerator / denominator + (numerator % denominator != 0)`. -/
def fast_ceil_division (numerator denominator : Nat) : Nat :=
  numerator / denominator + (if numerator % denominator = 0 then 0 else 1)

/-- `pool::alloc_size()`: the rounded chunk size — `max(requested_size,
min_alloc_size)` rounded up to a multiple of `min_align`. -/
def alloc_size (cfg : Cfg) : Nat :=
  let s := max cfg.requested_size cfg.min_alloc_size
  let rem := s % cfg.min_align
  if rem = 0 then s else s + (cfg.min_align - rem)

/-- `pool::pod_size()` for a given `next_size_`:
`next_size_ * alloc_size() + min_alloc_size + sizeof(size_type)`. -/
def pod_size (cfg : Cfg) (next_size : Nat) : Nat :=
  next_size * alloc_size cfg + cfg.min_alloc_size + cfg.size_size

/-- A raw block obtained from the system allocator, as stored in a `PODptr`:
its start address and its total byte size. -/
structure Block where
  start : Nat
  size : Nat
deriving DecidableEq, Repr

/-- `pod_ptr::element_size()`: `total_size - sizeof(size_type) - min_alloc_size`,
the byte size of the useful chunk region of the block. -/
def elementSize (cfg : Cfg) (b : Block) : Nat :=
  b.size - cfg.size_size - cfg.min_alloc_size

/-- `pod_ptr::end()`: one past the useful chunk region,
`begin() + element_size()`. -/
def blockEnd (cfg : Cfg) (b : Block) : Nat :=
  b.start + elementSize cfg b

/-- The addresses of the chunks carved out of a block: `begin() + i * alloc_size()`
for `i` below `element_size() / alloc_size()` (the `release_memory` sweep steps
through exactly these addresses). -/
def blockChunks (cfg : Cfg) (b : Block) : List Nat :=
  (List.range (elementSize cfg b / alloc_size cfg)).map
    (fun i => b.start + i * alloc_size cfg)

/-- Whether address `p` is a chunk of one of the blocks in `bl`. -/
def chunkOfAny (cfg : Cfg) (bl : List Block) (p : Nat) : Bool :=
  bl.any (fun b => (blockChunks cfg b).contains p)

/-- `pool::is_from(chunk, i, sizeof_i)` (the static overload):
`i <= chunk && chunk < i + sizeof_i`. -/
def is_from (chunk i sizeof_i : Nat) : Bool :=
  decide (i ≤ chunk) && decide (chunk < i + sizeof_i)

/-- `segregated_storage::segregate(block, sz, partition_sz, end)`.  The C code
threads next-pointers through the region in place, producing the in-order chain
of the `(sz - partition_sz) / partition_sz + 1` chunk addresses
`block, block + partition_sz, ...`, whose last chunk points at `end`; in the
list model this is that address list followed by the list `end` points to.
It returns the head, `block` (the first element below). -/
def segregate (block sz partition_sz : Nat) (tail : List Nat) : List Nat :=
  ((List.range ((sz - partition_sz) / partition_sz + 1)).map
    (fun i => block + i * partition_sz)) ++ tail

/-- `segregated_storage::add_block(block, nsz, npartition_sz)`:
`first_ = segregate(block, nsz, npartition_sz, first_)`. -/
def add_block (block nsz npartition_sz : Nat) (fl : List Nat) : List Nat :=
  segregate block nsz npartition_sz fl

/-- `segregated_storage::find_prev(ptr)` followed by the splice done by its
callers.  `find_prev` walks the free list while the next chunk is not greater
than `ptr` and returns the last chunk visited (null when the list is empty or
already starts above `ptr`); in the list model the chunks visited are exactly
`takeWhile (· ≤ ptr)` and the rest of the list is `dropWhile (· ≤ ptr)`. -/
def ordered_deallocate_chunk (chunk : Nat) (fl : List Nat) : List Nat :=
  fl.takeWhile (fun x => decide (x ≤ chunk)) ++
    chunk :: fl.dropWhile (fun x => decide (x ≤ chunk))

/-- `segregated_storage::add_ordered_block(block, nsz, npartition_sz)`:
locate `find_prev(block)`; when null, prepend via `add_block`; otherwise splice
`segregate(block, nsz, npartition_sz, nextof(loc))` after `loc`.  Both arms
coincide with splitting at `find_prev`'s position. -/
def add_ordered_block (block nsz npartition_sz : Nat) (fl : List Nat) : List Nat :=
  fl.takeWhile (fun x => decide (x ≤ block)) ++
    segregate block nsz npartition_sz (fl.dropWhile (fun x => decide (x ≤ block)))

/-- `segregated_storage::try_allocate_n(start, n, partition_size)` with
`x = nextof(start)` the candidate first chunk and `k = n - 1` the number of
steps still to verify.  Returns `(consumed, rest, ok)`: the chunks found
contiguous after `x`, the remainder of the list (on failure beginning with the
chunk that broke the chain, matching the C post-state of `start`), and whether
the whole run was found. -/
def try_allocate_n (partition_size x : Nat) : Nat → List Nat → List Nat × List Nat × Bool
  | 0, xs => ([], xs, true)
  | _ + 1, [] => ([], [], false)
  | k + 1, y :: ys =>
    if y = x + partition_size then
      let r := try_allocate_n partition_size y k ys
      (y :: r.1, r.2.1, r.2.2)
    else ([], y :: ys, false)

/-- The scan loop of `segregated_storage::allocate_n`: try each candidate run
start; on failure resume from the chunk that broke the chain (the chunks walked
over stay in the free list).  `fuel` bounds recursion depth; at top level it is
the list length, which the scan never exceeds since each round consumes at
least the candidate chunk. -/
def allocate_n_go (partition_size n : Nat) : Nat → List Nat → Option (Nat × List Nat)
  | 0, _ => none
  | _ + 1, [] => none
  | fuel + 1, x :: xs =>
    let t := try_allocate_n partition_size x (n - 1) xs
    if t.2.2 then some (x, t.2.1)
    else
      match allocate_n_go partition_size n fuel t.2.1 with
      | none => none
      | some (r, fl2) => some (r, x :: (t.1 ++ fl2))

/-- `segregated_storage::allocate_n(n, partition_size)`: null on `n == 0`,
otherwise scan the free list for `n` chunks contiguous at `partition_size`
spacing; on success return the first chunk and the free list with the run
unlinked; on failure return null (the free list is untouched). -/
def allocate_n (n partition_size : Nat) (fl : List Nat) : Option (Nat × List Nat) :=
  if n = 0 then none else allocate_n_go partition_size n fl.length fl

/-- The free list `fl` contains, somewhere, `n` list-adjacent chunks whose
successive addresses differ by exactly `cs` bytes (the kind of run
`allocate_n` searches for). -/
def HasRun (cs n : Nat) (fl : List Nat) : Prop :=
  ∃ pre r post, fl = pre ++ (List.range n).map (fun i => r + i * cs) ++ post

/-- The pool state: the free list (`segregated_storage::first_` chain), the
block list (`list_` chain), and the three size parameters. -/
structure Pool where
  freeList : List Nat
  blocks : List Block
  next_size : Nat
  start_size : Nat
  max_size : Nat
deriving DecidableEq, Repr

/-- Result of a pool allocation call: the returned chunk (null = `none`), the
post state, and the byte sizes requested from the system allocator, in call
order. -/
structure AllocResult where
  result : Option Nat
  state : Pool
  requests : List Nat
deriving DecidableEq, Repr

/-- The `next_size_` growth step shared by `pool::allocate_need_resize`,
`pool::ordered_allocate_need_resize` and `pool::ordered_allocate(n)`, applied
after a successful block allocation:
`if (!max_size_) next_size_ <<= 1; else if (next_size_ * partition_size / requested_size < max_size_) next_size_ = min(next_size_ << 1, max_size_ * requested_size / partition_size);`. -/
def growNextSize (cfg : Cfg) (max_size ns : Nat) : Nat :=
  if max_size = 0 then ns * 2
  else if ns * alloc_size cfg / cfg.requested_size < max_size then
    min (ns * 2) (max_size * cfg.requested_size / alloc_size cfg)
  else ns

/-- The chain of events in `pool::allocate_need_resize` after the system
allocator returned block address `ptr` for a request made with `next_size_ = ns`
(grow `next_size_`, `add_block` the useful region, prepend the block to the
block list, pop a chunk from the store). -/
def alloc_resize_success (cfg : Cfg) (st : Pool) (ns ptr : Nat)
    (reqs : List Nat) : AllocResult :=
  let node : Block := ⟨ptr, pod_size cfg ns⟩
  let ns' := growNextSize cfg st.max_size ns
  let fl' := add_block ptr (elementSize cfg node) (alloc_size cfg) st.freeList
  match fl' with
  | [] => ⟨none, { st with next_size := ns }, reqs⟩
  | h :: t =>
    ⟨some h,
     { st with freeList := t, blocks := node :: st.blocks, next_size := ns' },
     reqs⟩

/-- `pool::allocate_need_resize()`: request `pod_size()` bytes; on failure,
when `next_size_ > 4`, halve `next_size_` and retry exactly once; null when the
(re)try fails.  `r1`/`r2` are the system allocator's responses to the first and
second request. -/
def allocate_need_resize (cfg : Cfg) (st : Pool) (r1 r2 : Option Nat) : AllocResult :=
  let ps1 := pod_size cfg st.next_size
  match r1 with
  | some ptr => alloc_resize_success cfg st st.next_size ptr [ps1]
  | none =>
    if 4 < st.next_size then
      let ns1 := st.next_size / 2
      let ps2 := pod_size cfg ns1
      match r2 with
      | some ptr =>
        alloc_resize_success cfg { st with next_size := ns1 } ns1 ptr [ps1, ps2]
      | none => ⟨none, { st with next_size := ns1 }, [ps1, ps2]⟩
    else ⟨none, st, [ps1]⟩

/-- Insertion of a fresh block into the ordered block list, as done by
`pool::ordered_allocate_need_resize` and `pool::ordered_allocate(n)`: walk
while the next block's start is not greater than the node's and splice the node
there (prepending when the list is empty or starts above the node). -/
def insertBlock (node : Block) (bl : List Block) : List Block :=
  bl.takeWhile (fun b => decide (b.start ≤ node.start)) ++
    node :: bl.dropWhile (fun b => decide (b.start ≤ node.start))

/-- The success tail of `pool::ordered_allocate_need_resize` (grow `next_size_`,
`add_ordered_block` the useful region, splice the block into the ordered block
list, pop a chunk from the store). -/
def ordered_resize_success (cfg : Cfg) (st : Pool) (ns ptr : Nat)
    (reqs : List Nat) : AllocResult :=
  let node : Block := ⟨ptr, pod_size cfg ns⟩
  let ns' := growNextSize cfg st.max_size ns
  let fl' := add_ordered_block ptr (elementSize cfg node) (alloc_size cfg) st.freeList
  match fl' with
  | [] => ⟨none, { st with next_size := ns }, reqs⟩
  | h :: t =>
    ⟨some h,
     { st with freeList := t, blocks := insertBlock node st.blocks,
               next_size := ns' },
     reqs⟩

/-- `pool::ordered_allocate_need_resize()`: same failure policy as
`allocate_need_resize`, but the new block is added in address order to both the
free list and the block list. -/
def ordered_allocate_need_resize (cfg : Cfg) (st : Pool) (r1 r2 : Option Nat) :
    AllocResult :=
  let ps1 := pod_size cfg st.next_size
  match r1 with
  | some ptr => ordered_resize_success cfg st st.next_size ptr [ps1]
  | none =>
    if 4 < st.next_size then
      let ns1 := st.next_size / 2
      let ps2 := pod_size cfg ns1
      match r2 with
      | some ptr =>
        ordered_resize_success cfg { st with next_size := ns1 } ns1 ptr [ps1, ps2]
      | none => ⟨none, { st with next_size := ns1 }, [ps1, ps2]⟩
    else ⟨none, st, [ps1]⟩

/-- `pool::allocate()`: pop the free-list head when the store is not empty,
otherwise grow through `allocate_need_resize`. -/
def pool_allocate (cfg : Cfg) (st : Pool) (r1 r2 : Option Nat) : AllocResult :=
  match st.freeList with
  | p :: rest => ⟨some p, { st with freeList := rest }, []⟩
  | [] => allocate_need_resize cfg st r1 r2

/-- `pool::ordered_allocate()`: pop the free-list head when the store is not
empty, otherwise grow through `ordered_allocate_need_resize`. -/
def pool_ordered_allocate (cfg : Cfg) (st : Pool) (r1 r2 : Option Nat) : AllocResult :=
  match st.freeList with
  | p :: rest => ⟨some p, { st with freeList := rest }, []⟩
  | [] => ordered_allocate_need_resize cfg st r1 r2

/-- The success tail of `pool::ordered_allocate(n)` with the system block at
`ptr` allocated under `next_size_ = st.next_size`: split the surplus chunks
beyond `num_chunks` into the ordered free list, grow `next_size_`, splice the
block into the ordered block list, and return the block start. -/
def ordered_alloc_n_success (cfg : Cfg) (st : Pool) (num_chunks ptr : Nat)
    (reqs : List Nat) : AllocResult :=
  let partition_size := alloc_size cfg
  let node : Block := ⟨ptr, pod_size cfg st.next_size⟩
  let fl' :=
    if num_chunks < st.next_size then
      add_ordered_block (ptr + num_chunks * partition_size)
        (elementSize cfg node - num_chunks * partition_size) partition_size
        st.freeList
    else st.freeList
  let ns' := growNextSize cfg st.max_size st.next_size
  ⟨some ptr,
   { st with freeList := fl', blocks := insertBlock node st.blocks,
             next_size := ns' },
   reqs⟩

/-- `pool::ordered_allocate(n)`: compute `num_chunks = ceil(n * requested_size /
partition_size)` and scan via `allocate_n`; on scan failure with `n != 0`,
raise `next_size_` to at least `num_chunks`, request a block, on failure retry
once with `next_size_` halved but kept at least `num_chunks` (only when
`num_chunks < next_size_`), and null when everything failed. -/
def ordered_allocate_n (cfg : Cfg) (st : Pool) (n : Nat) (r1 r2 : Option Nat) :
    AllocResult :=
  let partition_size := alloc_size cfg
  let num_chunks := fast_ceil_division (n * cfg.requested_size) partition_size
  match allocate_n num_chunks partition_size st.freeList with
  | some (ret, fl') => ⟨some ret, { st with freeList := fl' }, []⟩
  | none =>
    if n = 0 then ⟨none, st, []⟩
    else
      let ns0 := max st.next_size num_chunks
      let ps1 := pod_size cfg ns0
      match r1 with
      | some ptr =>
        ordered_alloc_n_success cfg { st with next_size := ns0 } num_chunks ptr [ps1]
      | none =>
        if num_chunks < ns0 then
          let ns1 := max (ns0 / 2) num_chunks
          let ps2 := pod_size cfg ns1
          match r2 with
          | some ptr =>
            ordered_alloc_n_success cfg { st with next_size := ns1 } num_chunks ptr
              [ps1, ps2]
          | none => ⟨none, { st with next_size := ns1 }, [ps1, ps2]⟩
        else ⟨none, { st with next_size := ns0 }, [ps1]⟩

/-- `pool::deallocate(chunk)`: `store().deallocate(chunk)` prepends the chunk. -/
def pool_deallocate (st : Pool) (chunk : Nat) : Pool :=
  { st with freeList := chunk :: st.freeList }

/-- `pool::ordered_deallocate(chunk)`: `store().ordered_deallocate(chunk)`
inserts the chunk at its address position. -/
def pool_ordered_deallocate (st : Pool) (chunk : Nat) : Pool :=
  { st with freeList := ordered_deallocate_chunk chunk st.freeList }

/-- `pool::deallocate(chunks, n)`: `store().deallocate_n(chunks, num_chunks,
partition_size)`, which is `add_block` guarded on a nonzero chunk count. -/
def pool_deallocate_n (cfg : Cfg) (st : Pool) (chunks n : Nat) : Pool :=
  let partition_size := alloc_size cfg
  let num_chunks := fast_ceil_division (n * cfg.requested_size) partition_size
  if num_chunks = 0 then st
  else
    { st with
      freeList := add_block chunks (num_chunks * partition_size) partition_size
        st.freeList }

/-- `pool::ordered_deallocate(chunks, n)`: `store().ordered_deallocate_n(chunks,
num_chunks, partition_size)`, which is `add_ordered_block` guarded on a nonzero
chunk count. -/
def pool_ordered_deallocate_n (cfg : Cfg) (st : Pool) (chunks n : Nat) : Pool :=
  let partition_size := alloc_size cfg
  let num_chunks := fast_ceil_division (n * cfg.requested_size) partition_size
  if num_chunks = 0 then st
  else
    { st with
      freeList := add_ordered_block chunks (num_chunks * partition_size)
        partition_size st.freeList }

/-- The inner chunk scan of `pool::release_memory`: step `i` through the
block's chunk addresses comparing against the free-list position `free_p`; on
any mismatch (including running off the end of the free list) report failure —
the caller then restores `free_p` to `saved_free`, so the original list is kept;
on success return the free list just past the block's chunks. -/
def scanChunks : List Nat → List Nat → Option (List Nat)
  | [], fl => some fl
  | _ :: _, [] => none
  | c :: cbs, f :: fs => if c = f then scanChunks cbs fs else none

/-- The block sweep of `pool::release_memory`: walk the block list in lockstep
with the free list.  A block whose chunks are all present contiguously at the
current free-list position is removed from the block list and its chunks are
spliced out of the free list; otherwise the block is kept and, when the current
free chunk lies inside it, the free-list position advances past every free
chunk below the block's end (those chunks stay, accumulated in order).  When
the free list runs out, every remaining block is kept.  Returns the kept
blocks, the new free list, and whether any block was released. -/
def release_sweep (cfg : Cfg) : List Block → List Nat → List Block × List Nat × Bool
  | [], fl => ([], fl, false)
  | b :: bs, [] => (b :: bs, [], false)
  | b :: bs, f :: fs =>
    match scanChunks (blockChunks cfg b) (f :: fs) with
    | some fl2 =>
      let r := release_sweep cfg bs fl2
      (r.1, r.2.1, true)
    | none =>
      if is_from f b.start (elementSize cfg b) then
        let kept := (f :: fs).takeWhile (fun x => decide (x < blockEnd cfg b))
        let rest := (f :: fs).dropWhile (fun x => decide (x < blockEnd cfg b))
        let r := release_sweep cfg bs rest
        (b :: r.1, kept ++ r.2.1, r.2.2)
      else
        let r := release_sweep cfg bs (f :: fs)
        (b :: r.1, r.2.1, r.2.2)

/-- `pool::release_memory()`: run the sweep, then unconditionally reset
`next_size_ = start_size_`; the boolean reports whether a block was released. -/
def release_memory (cfg : Cfg) (st : Pool) : Pool × Bool :=
  let r := release_sweep cfg st.blocks st.freeList
  ({ st with blocks := r.1, freeList := r.2.1, next_size := st.start_size },
   r.2.2)

/-- `pool::purge_memory()`: false on an empty block list; otherwise return
every block, clear the block list and the free list, reset
`next_size_ = start_size_`, and return true. -/
def purge_memory (st : Pool) : Pool × Bool :=
  match st.blocks with
  | [] => (st, false)
  | _ :: _ =>
    ({ st with blocks := [], freeList := [], next_size := st.start_size }, true)

/-- The pool member a facade call resolves to. -/
inductive PoolMethod where
  | allocate
  | ordered_allocate_one
  | ordered_allocate_array (n : Nat)
  | deallocate
  | deallocate_array (n : Nat)
  | ordered_deallocate_one
  | ordered_deallocate_array (n : Nat)
deriving DecidableEq, Repr

/-- Whether a pool member maintains the ordered free-list discipline (the
`ordered_*` family); `allocate`/`deallocate`/`deallocate(p, n)` are the
unordered family. -/
def PoolMethod.isOrderedPath : PoolMethod → Bool
  | .ordered_allocate_one => true
  | .ordered_allocate_array _ => true
  | .ordered_deallocate_one => true
  | .ordered_deallocate_array _ => true
  | _ => false

/-- `fast_pool_allocator::allocate(n)` (same routing in the singleton and the
reference-counted flavor): `n == 1` calls the pool's `allocate()`, every other
`n` calls `ordered_allocate(n)`. -/
def fast_pool_allocate_route (n : Nat) : PoolMethod :=
  if n = 1 then .allocate else .ordered_allocate_array n

/-- `fast_pool_allocator::deallocate(p, n)` (same routing in the singleton and
the reference-counted flavor): `n == 1` calls the pool's `deallocate(p)`, every
other `n` calls `deallocate(p, n)`. -/
def fast_pool_deallocate_route (n : Nat) : PoolMethod :=
  if n = 1 then .deallocate else .deallocate_array n

/-- `pool_allocator::allocate(n)`: call the pool's `ordered_allocate(n)`; when
it returns null and `n != 0`, throw `bad_alloc` (modelled as `.error ()`),
otherwise return the pool's address. -/
def pool_allocator_allocate (cfg : Cfg) (st : Pool) (n : Nat) (r1 r2 : Option Nat) :
    Except Unit (Option Nat × Pool) :=
  let res := ordered_allocate_n cfg st n r1 r2
  if res.result = none ∧ n ≠ 0 then .error () else .ok (res.result, res.state)

/-- Block well-formedness: the block is large enough for its trailer fields
plus at least one chunk, and its useful region is a whole number of chunks
(which the source guarantees by always sizing blocks as `pod_size()`). -/
def BlockWF (cfg : Cfg) (b : Block) : Prop :=
  cfg.size_size + cfg.min_alloc_size + alloc_size cfg ≤ b.size ∧
  alloc_size cfg ∣ elementSize cfg b

/-- `a` lies entirely below `b` in memory, trailer included. -/
def blockBefore (a b : Block) : Prop :=
  a.start + a.size ≤ b.start

/-- Well-formedness of an ordered-mode pool state: the free list is strictly
ascending, the block list is ascending with disjoint block regions, every
block is well formed and every free chunk is a chunk of some block. -/
def Pool.WF (cfg : Cfg) (st : Pool) : Prop :=
  st.freeList.Pairwise (· < ·) ∧
  st.blocks.Pairwise blockBefore ∧
  (∀ b ∈ st.blocks, BlockWF cfg b) ∧
  (∀ p ∈ st.freeList, ∃ b ∈ st.blocks, p ∈ blockChunks cfg b)

/-- A region `[a, a + sz)` freshly handed out by the system allocator: disjoint
from every block the pool currently holds. -/
def FreshBlock (st : Pool) (a sz : Nat) : Prop :=
  ∀ b ∈ st.blocks, a + sz ≤ b.start ∨ b.start + b.size ≤ a

/-- One operation of the ordered pool API.  For the allocating operations,
`r1`/`r2` record the system allocator's responses to the (at most two) backing
block requests the operation may make. -/
inductive OrderedOp where
  | alloc (r1 r2 : Option Nat)
  | allocN (n : Nat) (r1 r2 : Option Nat)
  | dealloc (p : Nat)
  | deallocN (p n : Nat)
  | release
deriving DecidableEq, Repr

/-- The state transition of each ordered pool operation. -/
def stepOrdered (cfg : Cfg) (st : Pool) : OrderedOp → Pool
  | .alloc r1 r2 => (pool_ordered_allocate cfg st r1 r2).state
  | .allocN n r1 r2 => (ordered_allocate_n cfg st n r1 r2).state
  | .dealloc p => pool_ordered_deallocate st p
  | .deallocN p n => pool_ordered_deallocate_n cfg st p n
  | .release => (release_memory cfg st).1

/-- Run a sequence of ordered operations. -/
def execOrdered (cfg : Cfg) : Pool → List OrderedOp → Pool
  | st, [] => st
  | st, op :: ops => execOrdered cfg (stepOrdered cfg st op) ops

/-- Contract-validity of one ordered operation in a state: deallocations hand
back chunks of the pool that are not currently free (the source calls anything
else undefined behavior), and the system allocator, when consulted, returns
fresh memory disjoint from the pool's blocks. -/
def ValidOp (cfg : Cfg) (st : Pool) : OrderedOp → Prop
  | .alloc r1 r2 =>
    st.freeList ≠ [] ∨
      (0 < st.next_size ∧
        (∀ a ∈ r1, FreshBlock st a (pod_size cfg st.next_size)) ∧
        (r1 = none →
          ∀ a ∈ r2, FreshBlock st a (pod_size cfg (st.next_size / 2))))
  | .allocN n r1 r2 =>
    (allocate_n (fast_ceil_division (n * cfg.requested_size) (alloc_size cfg))
        (alloc_size cfg) st.freeList ≠ none) ∨
    n = 0 ∨
      ((∀ a ∈ r1,
          FreshBlock st a (pod_size cfg
            (max st.next_size
              (fast_ceil_division (n * cfg.requested_size) (alloc_size cfg))))) ∧
        (r1 = none →
          ∀ a ∈ r2,
            FreshBlock st a (pod_size cfg
              (max
                (max st.next_size
                  (fast_ceil_division (n * cfg.requested_size) (alloc_size cfg)) / 2)
                (fast_ceil_division (n * cfg.requested_size) (alloc_size cfg))))))
  | .dealloc p =>
    p ∉ st.freeList ∧ ∃ b ∈ st.blocks, p ∈ blockChunks cfg b
  | .deallocN p n =>
    fast_ceil_division (n * cfg.requested_size) (alloc_size cfg) = 0 ∨
      ((∀ i < fast_ceil_division (n * cfg.requested_size) (alloc_size cfg),
          p + i * alloc_size cfg ∉ st.freeList) ∧
        ∃ b ∈ st.blocks,
          ∀ i < fast_ceil_division (n * cfg.requested_size) (alloc_size cfg),
            p + i * alloc_size cfg ∈ blockChunks cfg b)
  | .release => True

/-- Validity of a whole operation sequence: each operation is valid in the
state it runs in. -/
inductive ValidSeq (cfg : Cfg) : Pool → List OrderedOp → Prop where
  | nil (st : Pool) : ValidSeq cfg st []
  | cons (st : Pool) (op : OrderedOp) (ops : List OrderedOp) :
      ValidOp cfg st op → ValidSeq cfg (stepOrdered cfg st op) ops →
      ValidSeq cfg st (op :: ops)

/-- One operation of a single-chunk allocate/deallocate workload, mixing the
unordered and ordered flavors (for the round-trip property). -/
inductive CycleOp where
  | alloc
  | ordAlloc
  | dealloc (p : Nat)
  | ordDealloc (p : Nat)
deriving DecidableEq, Repr

/-- State transition and system-request trace of one cycle operation; the
allocating operations are run with a system allocator that always fails, which
is irrelevant whenever the free list is nonempty. -/
def cycleStep (cfg : Cfg) (st : Pool) : CycleOp → Pool × List Nat
  | .alloc =>
    let r := pool_allocate cfg st none none
    (r.state, r.requests)
  | .ordAlloc =>
    let r := pool_ordered_allocate cfg st none none
    (r.state, r.requests)
  | .dealloc p => (pool_deallocate st p, [])
  | .ordDealloc p => (pool_ordered_deallocate st p, [])

/-- Run a cycle workload, concatenating the system-request traces. -/
def cycleExec (cfg : Cfg) : Pool → List CycleOp → Pool × List Nat
  | st, [] => (st, [])
  | st, op :: ops =>
    let r := cycleStep cfg st op
    let r2 := cycleExec cfg r.1 ops
    (r2.1, r.2 ++ r2.2)

/-- A cycle workload never empties the free list: at every allocation the
free list is nonempty. -/
def NeverEmpties (cfg : Cfg) : Pool → List CycleOp → Prop
  | _, [] => True
  | st, .alloc :: ops =>
    st.freeList ≠ [] ∧ NeverEmpties cfg (cycleStep cfg st .alloc).1 ops
  | st, .ordAlloc :: ops =>
    st.freeList ≠ [] ∧ NeverEmpties cfg (cycleStep cfg st .ordAlloc).1 ops
  | st, .dealloc p :: ops =>
    NeverEmpties cfg (cycleStep cfg st (.dealloc p)).1 ops
  | st, .ordDealloc p :: ops =>
    NeverEmpties cfg (cycleStep cfg st (.ordDealloc p)).1 ops

/-- Iterate `pool::ordered_allocate()` `k` times (failing system allocator),
collecting the results and the concatenated request trace. -/
def orderedAllocs (cfg : Cfg) : Nat → Pool → List (Option Nat) × Pool × List Nat
  | 0, st => ([], st, [])
  | k + 1, st =>
    let r := pool_ordered_allocate cfg st none none
    let rs := orderedAllocs cfg k r.state
    (r.result :: rs.1, rs.2.1, r.requests ++ rs.2.2)

instance (cfg : Cfg) : Decidable cfg.ok := by
  unfold Cfg.ok; exact inferInstance

instance (cfg : Cfg) (b : Block) : Decidable (BlockWF cfg b) := by
  unfold BlockWF; exact inferInstance

instance (a b : Block) : Decidable (blockBefore a b) := by
  unfold blockBefore; exact inferInstance

instance (cfg : Cfg) (st : Pool) : Decidable (st.WF cfg) := by
  unfold Pool.WF; exact inferInstance

instance (st : Pool) (a sz : Nat) : Decidable (FreshBlock st a sz) := by
  unfold FreshBlock; exact inferInstance

instance (cfg : Cfg) (st : Pool) (op : OrderedOp) : Decidable (ValidOp cfg st op) := by
  cases op <;> unfold ValidOp <;> exact inferInstance

instance (cfg : Cfg) (st : Pool) (ops : List CycleOp) :
    Decidable (NeverEmpties cfg st ops) := by
  induction ops generalizing st with
  | nil => unfold NeverEmpties; exact inferInstance
  | cons op ops ih =>
    cases op <;> unfold NeverEmpties <;>
      first
        | exact @instDecidableAnd _ _ inferInstance (ih _)
        | exact ih _

/-! ### Basic lemmas about the embedded operations -/

theorem segregate_cons (block sz partition_sz : Nat) (tail : List Nat) :
    segregate block sz partition_sz tail =
      block ::
        (((List.range ((sz - partition_sz) / partition_sz)).map
          (fun i => block + (i + 1) * partition_sz)) ++ tail) := by
  unfold segregate
  rw [List.range_succ_eq_map]
  simp [List.map_map, Function.comp, Nat.add_comm]

theorem segregate_ne_nil (block sz partition_sz : Nat) (tail : List Nat) :
    segregate block sz partition_sz tail ≠ [] := by
  rw [segregate_cons]; exact List.cons_ne_nil _ _

theorem pod_size_mono (cfg : Cfg) {a b : Nat} (h : a ≤ b) :
    pod_size cfg a ≤ pod_size cfg b := by
  unfold pod_size
  have := Nat.mul_le_mul_right (alloc_size cfg) h
  omega

theorem alloc_size_pos (cfg : Cfg) (h : cfg.ok) : 0 < alloc_size cfg := by
  obtain ⟨h1, _, h3, h4⟩ := h
  unfold alloc_size
  by_cases hr : max cfg.requested_size cfg.min_alloc_size % cfg.min_align = 0 <;>
    simp [hr] <;> omega

theorem fast_ceil_division_pos (cfg : Cfg) (h : cfg.ok) {m : Nat} (hm : 0 < m) :
    0 < fast_ceil_division m (alloc_size cfg) := by
  unfold fast_ceil_division
  by_cases hr : m % alloc_size cfg = 0
  · rw [if_pos hr]
    have hd := alloc_size_pos cfg h
    have hdvd : alloc_size cfg ∣ m := Nat.dvd_of_mod_eq_zero hr
    have hle : alloc_size cfg ≤ m := Nat.le_of_dvd hm hdvd
    have := Nat.div_pos hle hd
    omega
  · rw [if_neg hr]
    exact Nat.succ_pos _

/-! ### Claim C10: release/purge frame -/

/-- Claim C10: `release_memory` and `purge_memory` leave the `start_size` and
`max_size` fields unchanged — of the pool's five state components they touch
only the block list, the free-list head and `next_size`. -/
theorem release_purge_frame (cfg : Cfg) (st : Pool) :
    (release_memory cfg st).1.start_size = st.start_size ∧
    (release_memory cfg st).1.max_size = st.max_size ∧
    (purge_memory st).1.start_size = st.start_size ∧
    (purge_memory st).1.max_size = st.max_size := by
  refine ⟨rfl, rfl, ?_, ?_⟩ <;>
    · unfold purge_memory
      cases st.blocks <;> rfl

/-! ### Claim C7: fast allocator routing -/

/-- Claim C7 counterexample: for `n = 2 > 1`, `fast_pool_allocator::deallocate`
routes through the pool's plain `deallocate(p, n)` — an unordered path — so the
claim that `n > 1` requests go through the ordered pool path for both
`allocate(n)` and `deallocate(p, n)` is false. -/
theorem fast_deallocate_route_unordered_at_two :
    fast_pool_deallocate_route 2 = PoolMethod.deallocate_array 2 ∧
    (fast_pool_deallocate_route 2).isOrderedPath = false := by
  constructor <;> rfl

/-- Claim C7 amended: the fast allocator variants route `n == 1` through the
unordered single-chunk pool operations (`allocate()` / `deallocate(p)`); every
other `n` goes through the array operations — `ordered_allocate(n)` (ordered)
for allocation, but the unordered `deallocate(p, n)` for deallocation. -/
theorem fast_route_spec (n : Nat) :
    (n = 1 → fast_pool_allocate_route n = PoolMethod.allocate ∧
      fast_pool_deallocate_route n = PoolMethod.deallocate) ∧
    (n ≠ 1 → fast_pool_allocate_route n = PoolMethod.ordered_allocate_array n ∧
      fast_pool_deallocate_route n = PoolMethod.deallocate_array n) ∧
    (fast_pool_deallocate_route n).isOrderedPath = false ∧
    ((fast_pool_allocate_route n).isOrderedPath = true ↔ n ≠ 1) := by
  by_cases h : n = 1 <;>
    simp [fast_pool_allocate_route, fast_pool_deallocate_route,
      PoolMethod.isOrderedPath, h]

/-- Witness for the amended C7 routing theorem at `n = 2` and `n = 1`. -/
theorem fast_route_spec_witness :
    fast_pool_allocate_route 2 = PoolMethod.ordered_allocate_array 2 ∧
    fast_pool_deallocate_route 1 = PoolMethod.deallocate := by
  exact ⟨((fast_route_spec 2).2.1 (by decide)).1, ((fast_route_spec 1).1 rfl).2⟩

/-! ### Claim C8: typed allocator failure signalling -/

/-- Claim C8 counterexample: at `n = 0` the pool's `ordered_allocate(0)`
returns null, yet `pool_allocator::allocate(0)` does not raise — it returns the
null address — so raising is not equivalent to the pool returning null. -/
theorem pool_allocator_zero_no_raise :
    (ordered_allocate_n ⟨8, 8, 8, 8⟩ ⟨[], [], 8, 8, 0⟩ 0 none none).result = none ∧
    pool_allocator_allocate ⟨8, 8, 8, 8⟩ ⟨[], [], 8, 8, 0⟩ 0 none none =
      Except.ok (none, ⟨[], [], 8, 8, 0⟩) := by
  constructor <;> rfl

/-- Claim C8 amended: `pool_allocator::allocate(n)` raises an allocation
failure exactly when the pool's `ordered_allocate(n)` returns null AND
`n ≠ 0`; otherwise it returns the pool's address (and post state). -/
theorem pool_allocator_allocate_spec (cfg : Cfg) (st : Pool) (n : Nat)
    (r1 r2 : Option Nat) :
    (pool_allocator_allocate cfg st n r1 r2 = Except.error () ↔
      ((ordered_allocate_n cfg st n r1 r2).result = none ∧ n ≠ 0)) ∧
    (∀ p pst, pool_allocator_allocate cfg st n r1 r2 = Except.ok (p, pst) →
      p = (ordered_allocate_n cfg st n r1 r2).result ∧
      pst = (ordered_allocate_n cfg st n r1 r2).state) := by
  by_cases h : (ordered_allocate_n cfg st n r1 r2).result = none ∧ n ≠ 0
  · simp [pool_allocator_allocate, h]
  · simp only [pool_allocator_allocate, if_neg h, reduceCtorEq, false_iff]
    refine ⟨h, ?_⟩
    intro p pst hok
    injection hok with h2
    injection h2 with ha hb
    exact ⟨ha.symm, hb.symm⟩

/-- Witness for the amended C8 theorem: a state where the pool fails for
`n = 1` and the facade raises. -/
theorem pool_allocator_allocate_spec_witness :
    pool_allocator_allocate ⟨8, 8, 8, 8⟩ ⟨[], [], 8, 8, 0⟩ 1 none none =
      Except.error () := by
  exact (pool_allocator_allocate_spec ⟨8, 8, 8, 8⟩ ⟨[], [], 8, 8, 0⟩ 1
    none none).1.mpr (by constructor <;> decide)

/-! ### Claim C2: next_size growth after a successful block allocation -/

/-- Claim C2 counterexample: pool with rounded chunk size 8, `requested_size
= 8`, `next_size = 8`, `max_size = 4`.  After a successful block allocation
`next_size` stays 8 (the guard `next_size * partition_size / requested_size <
max_size` fails), but the claimed formula `min(next_size * 2, max_size *
requested_size / chunk_size_rounded)` gives 4. -/
theorem next_size_growth_counterexample :
    (allocate_need_resize ⟨8, 8, 8, 8⟩ ⟨[], [], 8, 8, 4⟩ (some 0) none).result =
      some 0 ∧
    (allocate_need_resize ⟨8, 8, 8, 8⟩ ⟨[], [], 8, 8, 4⟩ (some 0) none).state.next_size
      = 8 ∧
    min (8 * 2)
      (4 * (8 : Nat) / alloc_size ⟨8, 8, 8, 8⟩) = 4 := by
  refine ⟨?_, ?_, ?_⟩ <;> decide

/-- Claim C2 amended: after each successful block allocation by
`allocate`, `ordered_allocate` or `ordered_allocate(n)` — where `next_size`
denotes its value when the successful request was made (after any halving, and
after being raised to the needed chunk count on the array path) — the new
`next_size` is: doubled when `max_size == 0`; otherwise
`min(next_size * 2, max_size * requested_size / chunk_size_rounded)` when
`next_size * chunk_size_rounded / requested_size < max_size`, and unchanged
when that guard fails. -/
theorem next_size_growth_spec (cfg : Cfg) (st : Pool) (ptr : Nat)
    (r2 : Option Nat) (n NC : Nat)
    (hNC : NC = fast_ceil_division (n * cfg.requested_size) (alloc_size cfg))
    (hscan : allocate_n NC (alloc_size cfg) st.freeList = none)
    (hn : n ≠ 0) :
    ((allocate_need_resize cfg st (some ptr) r2).state.next_size =
      (if st.max_size = 0 then st.next_size * 2
        else if st.next_size * alloc_size cfg / cfg.requested_size < st.max_size
          then min (st.next_size * 2)
            (st.max_size * cfg.requested_size / alloc_size cfg)
          else st.next_size)) ∧
    ((ordered_allocate_need_resize cfg st (some ptr) r2).state.next_size =
      (if st.max_size = 0 then st.next_size * 2
        else if st.next_size * alloc_size cfg / cfg.requested_size < st.max_size
          then min (st.next_size * 2)
            (st.max_size * cfg.requested_size / alloc_size cfg)
          else st.next_size)) ∧
    ((ordered_allocate_n cfg st n (some ptr) r2).state.next_size =
      (if st.max_size = 0 then max st.next_size NC * 2
        else if max st.next_size NC * alloc_size cfg / cfg.requested_size <
            st.max_size
          then min (max st.next_size NC * 2)
            (st.max_size * cfg.requested_size / alloc_size cfg)
          else max st.next_size NC)) ∧
    (4 < st.next_size →
      (allocate_need_resize cfg st none (some ptr)).state.next_size =
        (if st.max_size = 0 then st.next_size / 2 * 2
          else if st.next_size / 2 * alloc_size cfg / cfg.requested_size <
              st.max_size
            then min (st.next_size / 2 * 2)
              (st.max_size * cfg.requested_size / alloc_size cfg)
            else st.next_size / 2)) ∧
    (4 < st.next_size →
      (ordered_allocate_need_resize cfg st none (some ptr)).state.next_size =
        (if st.max_size = 0 then st.next_size / 2 * 2
          else if st.next_size / 2 * alloc_size cfg / cfg.requested_size <
              st.max_size
            then min (st.next_size / 2 * 2)
              (st.max_size * cfg.requested_size / alloc_size cfg)
            else st.next_size / 2)) ∧
    (NC < max st.next_size NC →
      (ordered_allocate_n cfg st n none (some ptr)).state.next_size =
        (if st.max_size = 0 then max (max st.next_size NC / 2) NC * 2
          else if max (max st.next_size NC / 2) NC * alloc_size cfg /
              cfg.requested_size < st.max_size
            then min (max (max st.next_size NC / 2) NC * 2)
              (st.max_size * cfg.requested_size / alloc_size cfg)
            else max (max st.next_size NC / 2) NC)) := by
  subst hNC
  have hsucc : ∀ (st' : Pool) (ns : Nat) (reqs : List Nat),
      (alloc_resize_success cfg st' ns ptr reqs).state.next_size =
        growNextSize cfg st'.max_size ns := by
    intro st' ns reqs
    simp only [alloc_resize_success, add_block, segregate_cons]
  have hosucc : ∀ (st' : Pool) (ns : Nat) (reqs : List Nat),
      (ordered_resize_success cfg st' ns ptr reqs).state.next_size =
        growNextSize cfg st'.max_size ns := by
    intro st' ns reqs
    simp only [ordered_resize_success]
    rcases hsplit : add_ordered_block ptr
        (elementSize cfg ⟨ptr, pod_size cfg ns⟩) (alloc_size cfg) st'.freeList
      with _ | ⟨h, t⟩
    · exact absurd (List.append_eq_nil.mp hsplit).2 (segregate_ne_nil _ _ _ _)
    · simp only [hsplit]
  refine ⟨?_, ?_, ?_, ?_, ?_, ?_⟩
  · simp only [allocate_need_resize, hsucc, growNextSize]
  · simp only [ordered_allocate_need_resize, hosucc, growNextSize]
  · simp only [ordered_allocate_n, hscan, if_neg hn, ordered_alloc_n_success,
      growNextSize]
  · intro h4
    simp only [allocate_need_resize, if_pos h4, hsucc, growNextSize]
  · intro h4
    simp only [ordered_allocate_need_resize, if_pos h4, hosucc, growNextSize]
  · intro hlt
    simp only [ordered_allocate_n, hscan, if_neg hn, if_pos hlt,
      ordered_alloc_n_success, growNextSize]

/-- Witness for the amended C2 growth theorem: the concrete pool of the
counterexample, where the code leaves `next_size` at 8. -/
theorem next_size_growth_spec_witness :
    (allocate_need_resize ⟨8, 8, 8, 8⟩ ⟨[], [], 8, 8, 4⟩ (some 0) none).state.next_size
      = (if (4 : Nat) = 0 then 8 * 2
          else if 8 * alloc_size ⟨8, 8, 8, 8⟩ / 8 < 4
            then min (8 * 2) (4 * 8 / alloc_size ⟨8, 8, 8, 8⟩)
            else 8) := by
  exact (next_size_growth_spec ⟨8, 8, 8, 8⟩ ⟨[], [], 8, 8, 4⟩ 0 none 2 2
    (by decide) (by decide) (by decide)).1

/-! ### Claim C3: failure fallback -/

/-- Claim C3: when the system allocator fails a backing-block request
(`r1 = none`): on the single-chunk growth paths the pool halves `next_size`
and retries exactly once provided `next_size > 4` (the two requested sizes are
`pod_size` of `next_size` and of its half), returning null when the retry — or
the original attempt, when `next_size ≤ 4` — fails; on the `ordered_allocate(n)`
path the first request is made with `next_size` raised to at least the needed
chunk count `NC`, every request made is at least `pod_size NC` large, and total
failure both returns null and leaves `next_size ≥ NC`. -/
theorem alloc_failure_fallback (cfg : Cfg) (st : Pool) (r2 : Option Nat)
    (n NC : Nat)
    (hNC : NC = fast_ceil_division (n * cfg.requested_size) (alloc_size cfg))
    (hscan : allocate_n NC (alloc_size cfg) st.freeList = none)
    (hn : n ≠ 0) :
    (4 < st.next_size →
      (allocate_need_resize cfg st none r2).requests =
        [pod_size cfg st.next_size, pod_size cfg (st.next_size / 2)] ∧
      (ordered_allocate_need_resize cfg st none r2).requests =
        [pod_size cfg st.next_size, pod_size cfg (st.next_size / 2)] ∧
      (r2 = none →
        (allocate_need_resize cfg st none r2).result = none ∧
        (allocate_need_resize cfg st none r2).state.next_size =
          st.next_size / 2 ∧
        (ordered_allocate_need_resize cfg st none r2).result = none ∧
        (ordered_allocate_need_resize cfg st none r2).state.next_size =
          st.next_size / 2)) ∧
    (st.next_size ≤ 4 →
      (allocate_need_resize cfg st none r2).requests =
        [pod_size cfg st.next_size] ∧
      (allocate_need_resize cfg st none r2).result = none ∧
      (ordered_allocate_need_resize cfg st none r2).requests =
        [pod_size cfg st.next_size] ∧
      (ordered_allocate_need_resize cfg st none r2).result = none) ∧
    ((ordered_allocate_n cfg st n none r2).requests.head? =
      some (pod_size cfg (max st.next_size NC)) ∧
      (∀ q ∈ (ordered_allocate_n cfg st n none r2).requests,
        pod_size cfg NC ≤ q) ∧
      (r2 = none →
        (ordered_allocate_n cfg st n none r2).result = none ∧
        NC ≤ (ordered_allocate_n cfg st n none r2).state.next_size)) := by
  subst hNC
  have hreq : ∀ (st' : Pool) (ns : Nat) (ptr : Nat) (reqs : List Nat),
      (alloc_resize_success cfg st' ns ptr reqs).requests = reqs := by
    intro st' ns ptr reqs
    simp only [alloc_resize_success, add_block, segregate_cons]
  have horeq : ∀ (st' : Pool) (ns : Nat) (ptr : Nat) (reqs : List Nat),
      (ordered_resize_success cfg st' ns ptr reqs).requests = reqs := by
    intro st' ns ptr reqs
    simp only [ordered_resize_success]
    rcases hsplit : add_ordered_block ptr
        (elementSize cfg ⟨ptr, pod_size cfg ns⟩) (alloc_size cfg) st'.freeList
      with _ | ⟨h, t⟩
    · exact absurd (List.append_eq_nil.mp hsplit).2 (segregate_ne_nil _ _ _ _)
    · simp only [hsplit]
  have hnreq : ∀ (st' : Pool) (nc ptr : Nat) (reqs : List Nat),
      (ordered_alloc_n_success cfg st' nc ptr reqs).requests = reqs := by
    intro st' nc ptr reqs
    simp only [ordered_alloc_n_success]
  refine ⟨?_, ?_, ?_⟩
  · intro h4
    rcases r2 with _ | a <;>
      simp only [allocate_need_resize, ordered_allocate_need_resize, if_pos h4,
        hreq, horeq] <;> simp
  · intro h4
    have h4' : ¬ 4 < st.next_size := by omega
    rcases r2 with _ | a <;>
      simp only [allocate_need_resize, ordered_allocate_need_resize,
        if_neg h4'] <;> simp
  · have hmem2 : ∀ q a b, q ∈ [pod_size cfg a, pod_size cfg b] →
        fast_ceil_division (n * cfg.requested_size) (alloc_size cfg) ≤ a →
        fast_ceil_division (n * cfg.requested_size) (alloc_size cfg) ≤ b →
        pod_size cfg
          (fast_ceil_division (n * cfg.requested_size) (alloc_size cfg)) ≤ q := by
      intro q a b hq ha hb
      rcases List.mem_cons.mp hq with h | h
      · subst h; exact pod_size_mono cfg ha
      · rw [List.mem_singleton.mp h]; exact pod_size_mono cfg hb
    by_cases hret :
      fast_ceil_division (n * cfg.requested_size) (alloc_size cfg) <
        max st.next_size
          (fast_ceil_division (n * cfg.requested_size) (alloc_size cfg))
    · rcases r2 with _ | a
      · simp only [ordered_allocate_n, hscan, if_neg hn, if_pos hret]
        refine ⟨by trivial, ?_, ?_⟩
        · intro q hq
          exact hmem2 q _ _ hq (Nat.le_max_right _ _) (Nat.le_max_right _ _)
        · intro _; exact ⟨by trivial, Nat.le_max_right _ _⟩
      · simp only [ordered_allocate_n, hscan, if_neg hn, if_pos hret, hnreq]
        refine ⟨by trivial, ?_, ?_⟩
        · intro q hq
          exact hmem2 q _ _ hq (Nat.le_max_right _ _) (Nat.le_max_right _ _)
        · intro hcontra; exact absurd hcontra (by simp)
    · simp only [ordered_allocate_n, hscan, if_neg hn, if_neg hret]
      refine ⟨by trivial, ?_, ?_⟩
      · intro q hq
        rw [List.mem_singleton.mp hq]
        exact pod_size_mono cfg (Nat.le_max_right _ _)
      · intro _; exact ⟨by trivial, Nat.le_max_right _ _⟩

/-- Witness for the C3 fallback theorem: a pool with `next_size = 16` and a
twice-failing system allocator requests 144 then 80 bytes and returns null. -/
theorem alloc_failure_fallback_witness :
    (allocate_need_resize ⟨8, 8, 8, 8⟩ ⟨[], [], 16, 16, 0⟩ none none).requests =
      [pod_size ⟨8, 8, 8, 8⟩ 16, pod_size ⟨8, 8, 8, 8⟩ (16 / 2)] ∧
    (allocate_need_resize ⟨8, 8, 8, 8⟩ ⟨[], [], 16, 16, 0⟩ none none).result =
      none := by
  have h := alloc_failure_fallback ⟨8, 8, 8, 8⟩ ⟨[], [], 16, 16, 0⟩ none 1 1
    (by decide) (by decide) (by decide)
  exact ⟨(h.1 (by decide)).1, ((h.1 (by decide)).2.2 rfl).1⟩

/-! ### Claim C6: segregate -/

/-- Claim C6: for a region of `sz ≥ partition_sz` bytes, `segregate` returns
the block start as the free-list head and threads the free list through the
region in ascending order: the result is exactly the `⌊sz / partition_sz⌋`
chunk addresses `block + i * partition_sz` in order, followed by `end`
(so chunk `i` points at chunk `i + 1` and the last chunk points at `end`),
including the single-chunk case `sz = partition_sz`. -/
theorem segregate_spec (block sz partition_sz : Nat) (tail : List Nat)
    (hp : 0 < partition_sz) (hsz : partition_sz ≤ sz) :
    segregate block sz partition_sz tail =
      ((List.range (sz / partition_sz)).map
        (fun i => block + i * partition_sz)) ++ tail ∧
    (segregate block sz partition_sz tail).head? = some block ∧
    ((List.range (sz / partition_sz)).map
      (fun i => block + i * partition_sz)).Pairwise (· < ·) := by
  have hdiv : (sz - partition_sz) / partition_sz + 1 = sz / partition_sz := by
    have h1 : sz = (sz - partition_sz) + partition_sz :=
      (Nat.sub_add_cancel hsz).symm
    conv_rhs => rw [h1]
    rw [Nat.add_div_right _ hp]
  refine ⟨?_, ?_, ?_⟩
  · unfold segregate
    rw [hdiv]
  · rw [segregate_cons]; rfl
  · refine List.Pairwise.map _ ?_ (List.pairwise_lt_range _)
    intro a b hab
    have := (Nat.mul_lt_mul_right hp).mpr hab
    omega

/-- Witness for the segregate theorem: a 24-byte region in 8-byte chunks. -/
theorem segregate_spec_witness :
    segregate 100 24 8 [900] =
      ((List.range (24 / 8)).map (fun i => 100 + i * 8)) ++ [900] := by
  exact (segregate_spec 100 24 8 [900] (by decide) (by decide)).1

/-! ### Claim C5: allocate_n -/

theorem chain_cons (cs x m : Nat) :
    (List.range (m + 1)).map (fun i => x + i * cs) =
      x :: (List.range m).map (fun i => (x + cs) + i * cs) := by
  rw [List.range_succ_eq_map, List.map_cons, List.map_map]
  congr 1
  · simp
  · refine List.map_congr_left ?_
    intro a _
    simp only [Function.comp_apply, Nat.succ_eq_add_one]
    ring

theorem try_allocate_n_append (cs : Nat) :
    ∀ (k x : Nat) (xs : List Nat),
      (try_allocate_n cs x k xs).1 ++ (try_allocate_n cs x k xs).2.1 = xs := by
  intro k
  induction k with
  | zero => intro x xs; rfl
  | succ k ih =>
    intro x xs
    cases xs with
    | nil => rfl
    | cons y ys =>
      by_cases hy : y = x + cs
      · simp only [try_allocate_n, if_pos hy, List.cons_append]
        rw [ih y ys]
      · simp only [try_allocate_n, if_neg hy, List.nil_append]

theorem try_allocate_n_true (cs : Nat) :
    ∀ (k x : Nat) (xs : List Nat), (try_allocate_n cs x k xs).2.2 = true →
      x :: (try_allocate_n cs x k xs).1 =
        (List.range (k + 1)).map (fun i => x + i * cs) := by
  intro k
  induction k with
  | zero =>
    intro x xs _
    simp [try_allocate_n, List.range_succ]
  | succ k ih =>
    intro x xs h
    cases xs with
    | nil => exact absurd h (by simp [try_allocate_n])
    | cons y ys =>
      by_cases hy : y = x + cs
      · simp only [try_allocate_n, if_pos hy] at h ⊢
        rw [chain_cons cs x (k + 1), ← hy]
        exact congrArg _ (ih y ys h)
      · exact absurd h (by simp [try_allocate_n, if_neg hy])

theorem try_allocate_n_false (cs : Nat) :
    ∀ (k x : Nat) (xs : List Nat), (try_allocate_n cs x k xs).2.2 = false →
      ∃ m, m < k ∧
        x :: (try_allocate_n cs x k xs).1 =
          (List.range (m + 1)).map (fun i => x + i * cs) ∧
        ((try_allocate_n cs x k xs).2.1 = [] ∨
          ∃ z zs, (try_allocate_n cs x k xs).2.1 = z :: zs ∧
            z ≠ x + (m + 1) * cs) := by
  intro k
  induction k with
  | zero => intro x xs h; exact absurd h (by simp [try_allocate_n])
  | succ k ih =>
    intro x xs h
    cases xs with
    | nil =>
      refine ⟨0, Nat.succ_pos k, ?_, Or.inl rfl⟩
      simp [try_allocate_n, List.range_succ]
    | cons y ys =>
      by_cases hy : y = x + cs
      · simp only [try_allocate_n, if_pos hy] at h ⊢
        obtain ⟨m, hm, hchain, hrest⟩ := ih y ys h
        refine ⟨m + 1, by omega, ?_, ?_⟩
        · rw [chain_cons cs x (m + 1), ← hy]
          exact congrArg _ hchain
        · rcases hrest with h0 | ⟨z, zs, hz, hne⟩
          · exact Or.inl h0
          · refine Or.inr ⟨z, zs, hz, ?_⟩
            intro hc
            apply hne
            rw [hc, hy]
            ring
      · simp only [try_allocate_n, if_neg hy]
        refine ⟨0, Nat.succ_pos k, by simp [List.range_succ], ?_⟩
        refine Or.inr ⟨y, ys, rfl, ?_⟩
        intro hc
        apply hy
        rw [hc]; ring

theorem hasRun_cons_cases (cs n : Nat) (hn : n ≠ 0) {x : Nat} {xs : List Nat}
    (h : HasRun cs n (x :: xs)) :
    (∃ post, xs =
      (List.range (n - 1)).map (fun i => (x + cs) + i * cs) ++ post) ∨
      HasRun cs n xs := by
  obtain ⟨pre, r, post, heq⟩ := h
  cases pre with
  | nil =>
    left
    simp only [List.nil_append] at heq
    obtain ⟨n', rfl⟩ : ∃ n', n = n' + 1 := ⟨n - 1, by omega⟩
    rw [chain_cons, List.cons_append] at heq
    injection heq with h1 h2
    subst h1
    exact ⟨post, by simpa using h2⟩
  | cons a pre' =>
    right
    rw [List.cons_append, List.cons_append] at heq
    injection heq with h1 h2
    exact ⟨pre', r, post, h2⟩

theorem noRunExtend (cs n : Nat) :
    ∀ (m x : Nat) (rest : List Nat),
      m + 1 < n →
      (rest = [] ∨ ∃ z zs, rest = z :: zs ∧ z ≠ x + (m + 1) * cs) →
      ¬ HasRun cs n rest →
      ¬ HasRun cs n
        ((List.range (m + 1)).map (fun i => x + i * cs) ++ rest) := by
  intro m
  induction m with
  | zero =>
    intro x rest hn1 hz hnr hrun
    have hxr : (List.range (0 + 1)).map (fun i => x + i * cs) ++ rest =
        x :: rest := by
      rw [chain_cons]; simp
    rw [hxr] at hrun
    rcases hasRun_cons_cases cs n (by omega) hrun with ⟨post, hpost⟩ | htail
    · obtain ⟨n2, hn2⟩ : ∃ n2, n - 1 = n2 + 1 := ⟨n - 2, by omega⟩
      rw [hn2, chain_cons, List.cons_append] at hpost
      rcases hz with rfl | ⟨z, zs, hzz, hne⟩
      · exact (List.cons_ne_nil _ _) hpost.symm
      · rw [hzz] at hpost
        injection hpost with h1 _
        apply hne
        rw [h1]; ring
    · exact hnr htail
  | succ m ih =>
    intro x rest hn1 hz hnr hrun
    have hsplit : (List.range (m + 1 + 1)).map (fun i => x + i * cs) ++ rest =
        x :: ((List.range (m + 1)).map (fun i => (x + cs) + i * cs) ++ rest) := by
      rw [chain_cons, List.cons_append]
    rw [hsplit] at hrun
    rcases hasRun_cons_cases cs n (by omega) hrun with ⟨post, hpost⟩ | htail
    · obtain ⟨K, hK⟩ : ∃ K, n - 1 = (m + 1) + (K + 1) := ⟨n - m - 3, by omega⟩
      have hsplit2 : (List.range ((m + 1) + (K + 1))).map
            (fun i => (x + cs) + i * cs) =
          (List.range (m + 1)).map (fun i => (x + cs) + i * cs) ++
            (List.range (K + 1)).map
              (fun i => (x + cs) + ((m + 1) + i) * cs) := by
        rw [List.range_add, List.map_append, List.map_map]
        rfl
      rw [hK, hsplit2, List.append_assoc] at hpost
      have hrest := List.append_cancel_left hpost
      rw [List.range_succ_eq_map, List.map_cons] at hrest
      rcases hz with rfl | ⟨z, zs, hzz, hne⟩
      · rw [List.cons_append] at hrest
        exact (List.cons_ne_nil _ _) hrest.symm
      · rw [hzz, List.cons_append] at hrest
        injection hrest with h1 _
        apply hne
        rw [h1]
        show (x + cs) + ((m + 1) + 0) * cs = x + (m + 1 + 1) * cs
        ring
    · refine ih (x + cs) rest (by omega) ?_ hnr htail
      rcases hz with rfl | ⟨z, zs, hzz, hne⟩
      · exact Or.inl rfl
      · refine Or.inr ⟨z, zs, hzz, ?_⟩
        intro hc; apply hne; rw [hc]; ring

theorem hasRun_nil (cs n : Nat) (hn : n ≠ 0) : ¬ HasRun cs n [] := by
  rintro ⟨pre, r, post, heq⟩
  obtain ⟨h1, _⟩ := List.append_eq_nil.mp heq.symm
  obtain ⟨_, h2⟩ := List.append_eq_nil.mp h1
  exact hn (List.range_eq_nil.mp (List.map_eq_nil_iff.mp h2))

theorem allocate_n_go_some (cs n : Nat) (hn : n ≠ 0) :
    ∀ (fuel : Nat) (fl : List Nat) (r : Nat) (fl' : List Nat),
      allocate_n_go cs n fuel fl = some (r, fl') →
      ∃ pre post,
        fl = pre ++ (List.range n).map (fun i => r + i * cs) ++ post ∧
        fl' = pre ++ post := by
  intro fuel
  induction fuel with
  | zero => intro fl r fl' h; exact absurd h (by simp [allocate_n_go])
  | succ fuel ih =>
    intro fl r fl' h
    cases fl with
    | nil => exact absurd h (by simp [allocate_n_go])
    | cons x xs =>
      rw [allocate_n_go] at h
      by_cases ht : (try_allocate_n cs x (n - 1) xs).2.2 = true
      · rw [if_pos ht] at h
        injection h with h'
        injection h' with h1 h2
        subst h1
        refine ⟨[], (try_allocate_n cs x (n - 1) xs).2.1, ?_, by
          rw [← h2, List.nil_append]⟩
        have htrue := try_allocate_n_true cs (n - 1) x xs ht
        have hn1 : n - 1 + 1 = n := by omega
        rw [hn1] at htrue
        have happ := try_allocate_n_append cs (n - 1) x xs
        rw [List.nil_append, ← htrue, List.cons_append, happ]
      · rw [if_neg ht] at h
        cases hrec : allocate_n_go cs n fuel
            (try_allocate_n cs x (n - 1) xs).2.1 with
        | none => rw [hrec] at h; exact absurd h (by simp)
        | some p =>
          obtain ⟨r0, fl2⟩ := p
          rw [hrec] at h
          injection h with h'
          injection h' with h1 h2
          subst h1
          obtain ⟨pre', post', hfl, hfl2⟩ := ih _ r0 fl2 hrec
          refine ⟨x :: ((try_allocate_n cs x (n - 1) xs).1 ++ pre'), post',
            ?_, ?_⟩
          · have happ := try_allocate_n_append cs (n - 1) x xs
            rw [show x :: xs = x :: ((try_allocate_n cs x (n - 1) xs).1 ++
                (try_allocate_n cs x (n - 1) xs).2.1) from by rw [happ], hfl]
            simp [List.append_assoc]
          · rw [← h2, hfl2]
            simp [List.append_assoc]

theorem allocate_n_go_none (cs n : Nat) (hn : n ≠ 0) :
    ∀ (fuel : Nat) (fl : List Nat), fl.length ≤ fuel →
      allocate_n_go cs n fuel fl = none → ¬ HasRun cs n fl := by
  intro fuel
  induction fuel with
  | zero =>
    intro fl hlen _
    have hfl : fl = [] := List.length_eq_zero.mp (by omega)
    rw [hfl]
    exact hasRun_nil cs n hn
  | succ fuel ih =>
    intro fl hlen h
    cases fl with
    | nil => exact hasRun_nil cs n hn
    | cons x xs =>
      rw [allocate_n_go] at h
      by_cases ht : (try_allocate_n cs x (n - 1) xs).2.2 = true
      · rw [if_pos ht] at h; exact absurd h (by simp)
      · have ht' : (try_allocate_n cs x (n - 1) xs).2.2 = false := by
          simpa using ht
        rw [if_neg ht] at h
        cases hrec : allocate_n_go cs n fuel
            (try_allocate_n cs x (n - 1) xs).2.1 with
        | some p =>
          obtain ⟨r0, fl2⟩ := p
          rw [hrec] at h
          exact absurd h (by simp)
        | none =>
          have happ := try_allocate_n_append cs (n - 1) x xs
          have hlen2 : (try_allocate_n cs x (n - 1) xs).2.1.length ≤ fuel := by
            have hl := congrArg List.length happ
            rw [List.length_append] at hl
            rw [List.length_cons] at hlen
            omega
          have hnr := ih _ hlen2 hrec
          obtain ⟨m, hm, hchain, hrest⟩ := try_allocate_n_false cs (n - 1) x xs ht'
          have hfl : x :: xs =
              (List.range (m + 1)).map (fun i => x + i * cs) ++
                (try_allocate_n cs x (n - 1) xs).2.1 := by
            rw [← hchain, List.cons_append, happ]
          rw [hfl]
          exact noRunExtend cs n m x _ (by omega) hrest hnr

/-- Claim C5: `allocate_n(n, chunk_size)` returns null when `n = 0`; a
successful call returns the first chunk of a run of `n` consecutive free-list
chunks whose successive addresses differ by exactly `chunk_size` bytes,
removing exactly that run from the free list and leaving the rest unchanged;
and it returns null — leaving the free list untouched — exactly when no such
run exists in the list. -/
theorem allocate_n_spec (n cs : Nat) (fl : List Nat) :
    (n = 0 → allocate_n n cs fl = none) ∧
    (∀ r fl', allocate_n n cs fl = some (r, fl') →
      ∃ pre post,
        fl = pre ++ (List.range n).map (fun i => r + i * cs) ++ post ∧
        fl' = pre ++ post) ∧
    (n ≠ 0 → allocate_n n cs fl = none → ¬ HasRun cs n fl) := by
  refine ⟨?_, ?_, ?_⟩
  · intro h; simp [allocate_n, h]
  · intro r fl' h
    by_cases hn : n = 0
    · simp [allocate_n, hn] at h
    · rw [allocate_n, if_neg hn] at h
      exact allocate_n_go_some cs n hn _ fl r fl' h
  · intro hn h
    rw [allocate_n, if_neg hn] at h
    exact allocate_n_go_none cs n hn fl.length fl le_rfl h

/-- Witness for the allocate_n theorem on concrete lists: `n = 0` fails, a
2-run at spacing 8 is found and removed from `[0, 8, 24]`, and on `[0, 16]`
(no 2-run) the scan fails and indeed no run exists. -/
theorem allocate_n_spec_witness :
    allocate_n 0 8 [0, 8, 24] = none ∧
    (∃ pre post,
      ([0, 8, 24] : List Nat) =
        pre ++ (List.range 2).map (fun i => 0 + i * 8) ++ post ∧
      [24] = pre ++ post) ∧
    ¬ HasRun 8 2 [0, 16] := by
  refine ⟨(allocate_n_spec 0 8 [0, 8, 24]).1 rfl,
    (allocate_n_spec 2 8 [0, 8, 24]).2.1 0 [24] (by decide),
    (allocate_n_spec 2 8 [0, 16]).2.2 (by decide) (by decide)⟩

/-! ### Claim C1: release_memory -/

theorem contains_iff (l : List Nat) (x : Nat) : l.contains x = true ↔ x ∈ l :=
  List.elem_iff

theorem blockChunks_bounds (cfg : Cfg) (hok : cfg.ok) (b : Block) {p : Nat}
    (hp : p ∈ blockChunks cfg b) : b.start ≤ p ∧ p < blockEnd cfg b := by
  obtain ⟨i, hi, rfl⟩ := List.mem_map.mp hp
  refine ⟨Nat.le_add_right _ _, ?_⟩
  unfold blockEnd
  have hpos := alloc_size_pos cfg hok
  have hcount := List.mem_range.mp hi
  have h1 : (i + 1) * alloc_size cfg ≤
      (elementSize cfg b / alloc_size cfg) * alloc_size cfg :=
    Nat.mul_le_mul_right _ (by omega)
  have h2 : (elementSize cfg b / alloc_size cfg) * alloc_size cfg ≤
      elementSize cfg b := Nat.div_mul_le_self _ _
  have h3 : (i + 1) * alloc_size cfg = i * alloc_size cfg + alloc_size cfg :=
    Nat.succ_mul _ _
  omega

theorem blockChunks_lower (cfg : Cfg) (b : Block) {p : Nat}
    (hp : p ∈ blockChunks cfg b) : b.start ≤ p := by
  obtain ⟨i, _, rfl⟩ := List.mem_map.mp hp
  exact Nat.le_add_right _ _

theorem blockEnd_le_of_before (cfg : Cfg) {b b' : Block} (h : blockBefore b b') :
    blockEnd cfg b ≤ b'.start := by
  unfold blockBefore at h
  unfold blockEnd
  have : elementSize cfg b ≤ b.size := by
    unfold elementSize; omega
  omega

theorem sorted_takeWhile_lt (K : Nat) :
    ∀ (l : List Nat), l.Pairwise (· < ·) →
      l.takeWhile (fun x => decide (x < K)) =
        l.filter (fun x => decide (x < K)) ∧
      l.dropWhile (fun x => decide (x < K)) =
        l.filter (fun x => decide (K ≤ x)) := by
  intro l
  induction l with
  | nil => intro _; exact ⟨rfl, rfl⟩
  | cons x xs ih =>
    intro hp
    obtain ⟨hhead, htail⟩ := List.pairwise_cons.mp hp
    obtain ⟨iht, ihd⟩ := ih htail
    by_cases hx : x < K
    · constructor
      · rw [List.takeWhile_cons_of_pos (by simpa using hx),
          List.filter_cons_of_pos (by simpa using hx), iht]
      · rw [List.dropWhile_cons_of_pos (by simpa using hx),
          List.filter_cons_of_neg (by simp only [decide_eq_true_eq]; omega),
          ihd]
    · have hall : ∀ y ∈ xs, K ≤ y := by
        intro y hy
        have := hhead y hy
        omega
      constructor
      · rw [List.takeWhile_cons_of_neg (by simpa using hx)]
        symm
        rw [List.filter_eq_nil_iff]
        intro y hy
        simp only [decide_eq_true_eq]
        rcases List.mem_cons.mp hy with rfl | hy'
        · omega
        · have := hall y hy'; omega
      · rw [List.dropWhile_cons_of_neg (by simpa using hx),
          List.filter_cons_of_pos (by simp only [decide_eq_true_eq]; omega)]
        congr 1
        symm
        rw [List.filter_eq_self]
        intro y hy
        simpa using hall y hy

theorem scanChunks_some :
    ∀ (cbs fl rest : List Nat), scanChunks cbs fl = some rest →
      fl = cbs ++ rest := by
  intro cbs
  induction cbs with
  | nil =>
    intro fl rest h
    simp only [scanChunks, Option.some.injEq] at h
    rw [h, List.nil_append]
  | cons c cbs ih =>
    intro fl rest h
    cases fl with
    | nil => exact absurd h (by simp [scanChunks])
    | cons f fs =>
      rw [scanChunks] at h
      by_cases hc : c = f
      · rw [if_pos hc] at h
        rw [List.cons_append, ← hc, ih fs rest h]
      · rw [if_neg hc] at h
        exact absurd h (by simp)

theorem release_sweep_spec (cfg : Cfg) (hok : cfg.ok) :
    ∀ (bl : List Block) (fl : List Nat),
      fl.Pairwise (· < ·) →
      bl.Pairwise blockBefore →
      (∀ b ∈ bl, BlockWF cfg b) →
      (∀ p ∈ fl, ∃ b ∈ bl, p ∈ blockChunks cfg b) →
      (release_sweep cfg bl fl).1.Sublist bl ∧
      (release_sweep cfg bl fl).2.1 =
        fl.filter (fun p => chunkOfAny cfg (release_sweep cfg bl fl).1 p) ∧
      (∀ b ∈ bl, b ∉ (release_sweep cfg bl fl).1 →
        ∀ c ∈ blockChunks cfg b, c ∈ fl) ∧
      ((release_sweep cfg bl fl).2.2 = true ↔
        (release_sweep cfg bl fl).1 ≠ bl) := by
  intro bl
  induction bl with
  | nil =>
    intro fl _ _ _ hcont
    have hfle : fl = [] := by
      cases fl with
      | nil => rfl
      | cons p ps =>
        obtain ⟨b, hb, _⟩ := hcont p (List.mem_cons_self _ _)
        exact absurd hb (List.not_mem_nil _)
    subst hfle
    refine ⟨List.Sublist.refl _, rfl, ?_, by simp [release_sweep]⟩
    intro b hb
    exact absurd hb (List.not_mem_nil _)
  | cons b bs ih =>
    intro fl hfl hbl hbwf hcont
    obtain ⟨hbhead, hbtail⟩ := List.pairwise_cons.mp hbl
    have hbwfb := hbwf b (List.mem_cons_self _ _)
    have hbwfbs : ∀ b' ∈ bs, BlockWF cfg b' := fun b' hb' =>
      hbwf b' (List.mem_cons_of_mem _ hb')
    have hE : ∀ b' ∈ bs, blockEnd cfg b ≤ b'.start := fun b' hb' =>
      blockEnd_le_of_before cfg (hbhead b' hb')
    cases fl with
    | nil =>
      refine ⟨?_, ?_, ?_, ?_⟩
      · simp only [release_sweep]
        exact List.Sublist.refl _
      · simp [release_sweep]
      · intro b' hb' hnot
        simp only [release_sweep] at hnot
        exact absurd hb' hnot
      · simp [release_sweep]
    | cons f fs =>
      cases hscan : scanChunks (blockChunks cfg b) (f :: fs) with
      | some fl2 =>
        have hpre : (f :: fs) = blockChunks cfg b ++ fl2 :=
          scanChunks_some _ _ _ hscan
        have hfl2_sorted : fl2.Pairwise (· < ·) := by
          rw [hpre] at hfl
          exact (List.pairwise_append.mp hfl).2.1
        have hcb_lt : ∀ x ∈ blockChunks cfg b, ∀ y ∈ fl2, x < y := by
          rw [hpre] at hfl
          exact (List.pairwise_append.mp hfl).2.2
        have hcont2 : ∀ p ∈ fl2, ∃ b' ∈ bs, p ∈ blockChunks cfg b' := by
          intro p hp
          have hpfl : p ∈ (f :: fs) := by
            rw [hpre]; exact List.mem_append_right _ hp
          obtain ⟨b', hb', hpc⟩ := hcont p hpfl
          rcases List.mem_cons.mp hb' with rfl | hmem
          · exact absurd (hcb_lt p hpc p hp) (lt_irrefl p)
          · exact ⟨b', hmem, hpc⟩
        obtain ⟨ihsub, ihfil, ihonly, ihret⟩ :=
          ih fl2 hfl2_sorted hbtail hbwfbs hcont2
        have hred : release_sweep cfg (b :: bs) (f :: fs) =
            ((release_sweep cfg bs fl2).1,
             (release_sweep cfg bs fl2).2.1, true) := by
          simp only [release_sweep, hscan]
        have hnotchunk : ∀ c ∈ blockChunks cfg b, ∀ b' ∈ bs,
            c ∉ blockChunks cfg b' := by
          intro c hc b' hb' hcc
          have h1 := (blockChunks_bounds cfg hok b hc).2
          have h2 := blockChunks_lower cfg b' hcc
          have h3 := hE b' hb'
          omega
        simp only [hred]
        refine ⟨ihsub.cons b, ?_, ?_, ?_⟩
        · rw [hpre, List.filter_append]
          have hcbnil : (blockChunks cfg b).filter
              (fun p => chunkOfAny cfg (release_sweep cfg bs fl2).1 p) = [] := by
            rw [List.filter_eq_nil_iff]
            intro c hc hcontra
            unfold chunkOfAny at hcontra
            rw [List.any_eq_true] at hcontra
            obtain ⟨b', hb', hcont'⟩ := hcontra
            exact hnotchunk c hc b' (ihsub.subset hb')
              ((contains_iff _ _).mp hcont')
          rw [hcbnil, List.nil_append]
          exact ihfil
        · intro b' hb' hnot
          rcases List.mem_cons.mp hb' with rfl | hmem
          · intro c hc
            rw [hpre]
            exact List.mem_append_left _ hc
          · intro c hc
            have := ihonly b' hmem hnot c hc
            rw [hpre]
            exact List.mem_append_right _ this
        · constructor
          · intro _ heq
            have hlen := ihsub.length_le
            rw [heq] at hlen
            rw [List.length_cons] at hlen
            omega
          · intro _; trivial
      | none =>
        have hkr : ∃ kept rest,
            release_sweep cfg (b :: bs) (f :: fs) =
              (b :: (release_sweep cfg bs rest).1,
               kept ++ (release_sweep cfg bs rest).2.1,
               (release_sweep cfg bs rest).2.2) ∧
            kept = (f :: fs).filter
              (fun x => decide (x < blockEnd cfg b)) ∧
            rest = (f :: fs).filter
              (fun x => decide (blockEnd cfg b ≤ x)) ∧
            (f :: fs) = kept ++ rest := by
          obtain ⟨htake, hdrop⟩ := sorted_takeWhile_lt (blockEnd cfg b) (f :: fs) hfl
          by_cases hg : is_from f b.start (elementSize cfg b) = true
          · refine ⟨(f :: fs).takeWhile (fun x => decide (x < blockEnd cfg b)),
              (f :: fs).dropWhile (fun x => decide (x < blockEnd cfg b)),
              ?_, htake, hdrop, (List.takeWhile_append_dropWhile _ _).symm⟩
            simp only [release_sweep, hscan, if_pos hg]
          · have hfE : blockEnd cfg b ≤ f := by
              obtain ⟨b', hb', hfc⟩ := hcont f (List.mem_cons_self _ _)
              rcases List.mem_cons.mp hb' with hbb | hmem
              · rw [hbb] at hfc
                obtain ⟨h1, h2⟩ := blockChunks_bounds cfg hok b hfc
                unfold blockEnd at h2
                refine absurd ?_ hg
                unfold is_from
                rw [Bool.and_eq_true]
                exact ⟨decide_eq_true h1, decide_eq_true h2⟩
              · exact le_trans (hE b' hmem) (blockChunks_lower cfg b' hfc)
            have hallE : ∀ y ∈ (f :: fs), blockEnd cfg b ≤ y := by
              intro y hy
              rcases List.mem_cons.mp hy with rfl | hy'
              · exact hfE
              · have := (List.pairwise_cons.mp hfl).1 y hy'
                omega
            refine ⟨[], f :: fs, ?_, ?_, ?_, rfl⟩
            · simp only [release_sweep, hscan, if_neg hg, List.nil_append]
            · symm
              rw [List.filter_eq_nil_iff]
              intro y hy
              simp only [decide_eq_true_eq]
              have := hallE y hy
              omega
            · symm
              rw [List.filter_eq_self]
              intro y hy
              simp only [decide_eq_true_eq]
              exact hallE y hy
        obtain ⟨kept, rest, hred, hkept, hrest, hflsplit⟩ := hkr
        have hrest_sorted : rest.Pairwise (· < ·) := by
          rw [hrest]; exact hfl.filter _
        have hcontr : ∀ p ∈ rest, ∃ b' ∈ bs, p ∈ blockChunks cfg b' := by
          intro p hp
          rw [hrest] at hp
          obtain ⟨hpfl, hpE⟩ := List.mem_filter.mp hp
          obtain ⟨b', hb', hpc⟩ := hcont p hpfl
          rcases List.mem_cons.mp hb' with hbb | hmem
          · rw [hbb] at hpc
            have h2 := (blockChunks_bounds cfg hok b hpc).2
            simp only [decide_eq_true_eq] at hpE
            omega
          · exact ⟨b', hmem, hpc⟩
        obtain ⟨ihsub, ihfil, ihonly, ihret⟩ :=
          ih rest hrest_sorted hbtail hbwfbs hcontr
        have hchunkb_iff : ∀ y ∈ (f :: fs),
            ((blockChunks cfg b).contains y = true ↔ y < blockEnd cfg b) := by
          intro y hy
          constructor
          · intro hcy
            exact (blockChunks_bounds cfg hok b ((contains_iff _ _).mp hcy)).2
          · intro hyE
            obtain ⟨b', hb', hyc⟩ := hcont y hy
            rcases List.mem_cons.mp hb' with hbb | hmem
            · rw [hbb] at hyc
              exact (contains_iff _ _).mpr hyc
            · have h1 := blockChunks_lower cfg b' hyc
              have h2 := hE b' hmem
              omega
        simp only [hred]
        refine ⟨ihsub.cons₂ b, ?_, ?_, ?_⟩
        · conv_rhs => rw [hflsplit]
          rw [List.filter_append]
          congr 1
          · symm
            rw [List.filter_eq_self]
            intro y hy
            have hyfl : y ∈ (f :: fs) := by
              rw [hflsplit]; exact List.mem_append_left _ hy
            have hylt : y < blockEnd cfg b := by
              rw [hkept] at hy
              have := (List.mem_filter.mp hy).2
              simpa using this
            unfold chunkOfAny
            rw [List.any_cons, Bool.or_eq_true]
            exact Or.inl ((hchunkb_iff y hyfl).mpr hylt)
          · rw [ihfil]
            refine List.filter_congr ?_
            intro y hy
            have hyfl : y ∈ (f :: fs) := by
              rw [hflsplit]; exact List.mem_append_right _ hy
            have hyge : ¬ y < blockEnd cfg b := by
              rw [hrest] at hy
              have := (List.mem_filter.mp hy).2
              simp only [decide_eq_true_eq] at this
              omega
            have hcb : (blockChunks cfg b).contains y = false := by
              rw [Bool.eq_false_iff]
              intro hc
              exact hyge ((hchunkb_iff y hyfl).mp hc)
            unfold chunkOfAny
            rw [List.any_cons, hcb, Bool.false_or]
        · intro b' hb' hnot
          rcases List.mem_cons.mp hb' with rfl | hmem
          · exact absurd (List.mem_cons_self _ _) hnot
          · intro c hc
            have hcrest := ihonly b' hmem
              (fun hmem' => hnot (List.mem_cons_of_mem _ hmem')) c hc
            rw [hrest] at hcrest
            exact (List.mem_filter.mp hcrest).1
        · rw [ihret]
          constructor
          · intro h1 heq
            injection heq with _ h2
            exact h1 h2
          · intro h1 h2
            exact h1 (by rw [h2])

/-- Claim C1: in ordered mode (well-formed ordered state), `release_memory`
returns a block to the system allocator only when every chunk of that block is
in the free list; afterwards `next_size = start_size`, the free list is exactly
the original free chunks of the kept blocks, still strictly ascending (a valid
ordered list within the kept blocks), and the call returns true exactly when
at least one block was released (the kept block list is a proper sublist). -/
theorem release_memory_spec (cfg : Cfg) (st : Pool) (hok : cfg.ok)
    (hwf : st.WF cfg) :
    (release_memory cfg st).1.blocks.Sublist st.blocks ∧
    (∀ b ∈ st.blocks, b ∉ (release_memory cfg st).1.blocks →
      ∀ c ∈ blockChunks cfg b, c ∈ st.freeList) ∧
    (release_memory cfg st).1.freeList =
      st.freeList.filter
        (fun p => chunkOfAny cfg (release_memory cfg st).1.blocks p) ∧
    (∀ p ∈ (release_memory cfg st).1.freeList,
      ∃ b ∈ (release_memory cfg st).1.blocks, p ∈ blockChunks cfg b) ∧
    (release_memory cfg st).1.freeList.Pairwise (· < ·) ∧
    (release_memory cfg st).1.next_size = st.start_size ∧
    ((release_memory cfg st).2 = true ↔
      (release_memory cfg st).1.blocks ≠ st.blocks) := by
  obtain ⟨hfl, hbl, hbwf, hcont⟩ := hwf
  obtain ⟨hsub, hfil, honly, hret⟩ :=
    release_sweep_spec cfg hok st.blocks st.freeList hfl hbl hbwf hcont
  have hblocks : (release_memory cfg st).1.blocks =
      (release_sweep cfg st.blocks st.freeList).1 := rfl
  have hfree : (release_memory cfg st).1.freeList =
      (release_sweep cfg st.blocks st.freeList).2.1 := rfl
  have hretr : (release_memory cfg st).2 =
      (release_sweep cfg st.blocks st.freeList).2.2 := rfl
  rw [hblocks, hfree, hretr]
  refine ⟨hsub, honly, hfil, ?_, ?_, rfl, hret⟩
  · intro p hp
    rw [hfil] at hp
    obtain ⟨hpfl, hpchunk⟩ := List.mem_filter.mp hp
    unfold chunkOfAny at hpchunk
    rw [List.any_eq_true] at hpchunk
    obtain ⟨b, hb, hc⟩ := hpchunk
    exact ⟨b, hb, (contains_iff _ _).mp hc⟩
  · rw [hfil]
    exact hfl.filter _

/-- Witness for the release_memory theorem: two blocks of two 8-byte chunks
each; the first block's chunks are all free, the second has one chunk in use.
The first block is released, the free list keeps exactly chunk 108. -/
theorem release_memory_spec_witness :
    (release_memory ⟨8, 8, 8, 8⟩
      ⟨[0, 8, 108], [⟨0, 32⟩, ⟨100, 32⟩], 7, 3, 0⟩).1.blocks.Sublist
        [⟨0, 32⟩, ⟨100, 32⟩] ∧
    (release_memory ⟨8, 8, 8, 8⟩
      ⟨[0, 8, 108], [⟨0, 32⟩, ⟨100, 32⟩], 7, 3, 0⟩).1.next_size = 3 ∧
    ((release_memory ⟨8, 8, 8, 8⟩
      ⟨[0, 8, 108], [⟨0, 32⟩, ⟨100, 32⟩], 7, 3, 0⟩).2 = true ↔
      (release_memory ⟨8, 8, 8, 8⟩
        ⟨[0, 8, 108], [⟨0, 32⟩, ⟨100, 32⟩], 7, 3, 0⟩).1.blocks ≠
        [⟨0, 32⟩, ⟨100, 32⟩]) := by
  have h := release_memory_spec ⟨8, 8, 8, 8⟩
    ⟨[0, 8, 108], [⟨0, 32⟩, ⟨100, 32⟩], 7, 3, 0⟩ (by decide) (by decide)
  exact ⟨h.1, h.2.2.2.2.2.1, h.2.2.2.2.2.2⟩

/-! ### Claim C9: round trip -/

theorem orderedAllocs_eq (cfg : Cfg) :
    ∀ (k : Nat) (st : Pool), k ≤ st.freeList.length →
      orderedAllocs cfg k st =
        ((st.freeList.take k).map some,
         { st with freeList := st.freeList.drop k }, []) := by
  intro k
  induction k with
  | zero => intro st _; rfl
  | succ k ih =>
    intro st hk
    cases hfl : st.freeList with
    | nil => rw [hfl] at hk; simp at hk
    | cons x xs =>
      have hstep : pool_ordered_allocate cfg st none none =
          ⟨some x, { st with freeList := xs }, []⟩ := by
        rw [pool_ordered_allocate, hfl]
      have hlen : k ≤ ({ st with freeList := xs } : Pool).freeList.length := by
        rw [hfl] at hk
        simpa using Nat.le_of_succ_le_succ hk
      rw [orderedAllocs, hstep, ih _ hlen]
      simp [hfl]

theorem orderedAllocs_getLast (cfg : Cfg) (st : Pool) (pre post : List Nat)
    (p : Nat) (h : st.freeList = pre ++ p :: post) :
    (orderedAllocs cfg (pre.length + 1) st).1.getLast? = some (some p) ∧
    (orderedAllocs cfg (pre.length + 1) st).2.2 = [] := by
  have hlen : pre.length + 1 ≤ st.freeList.length := by
    rw [h]; simp
  rw [orderedAllocs_eq cfg (pre.length + 1) st hlen]
  constructor
  · have htake : st.freeList.take (pre.length + 1) = pre ++ [p] := by
      rw [h, show pre ++ p :: post = (pre ++ [p]) ++ post by simp,
        show pre.length + 1 = (pre ++ [p]).length by simp, List.take_left]
    rw [htake, List.map_append]
    exact List.getLast?_concat _
  · rfl

theorem cycleStep_no_sys (cfg : Cfg) (st : Pool) (op : CycleOp)
    (h : st.freeList ≠ []) : (cycleStep cfg st op).2 = [] := by
  cases op with
  | alloc =>
    cases hfl : st.freeList with
    | nil => exact absurd hfl h
    | cons x xs => simp [cycleStep, pool_allocate, hfl]
  | ordAlloc =>
    cases hfl : st.freeList with
    | nil => exact absurd hfl h
    | cons x xs => simp [cycleStep, pool_ordered_allocate, hfl]
  | dealloc p => rfl
  | ordDealloc p => rfl

theorem cycle_no_sys (cfg : Cfg) :
    ∀ (ops : List CycleOp) (st : Pool), NeverEmpties cfg st ops →
      (cycleExec cfg st ops).2 = [] := by
  intro ops
  induction ops with
  | nil => intro st _; rfl
  | cons op ops ih =>
    intro st hne
    cases op with
    | alloc =>
      simp only [NeverEmpties] at hne
      simp only [cycleExec]
      rw [cycleStep_no_sys cfg st _ hne.1, List.nil_append]
      exact ih _ hne.2
    | ordAlloc =>
      simp only [NeverEmpties] at hne
      simp only [cycleExec]
      rw [cycleStep_no_sys cfg st _ hne.1, List.nil_append]
      exact ih _ hne.2
    | dealloc p =>
      simp only [NeverEmpties] at hne
      simp only [cycleExec]
      rw [show (cycleStep cfg st (CycleOp.dealloc p)).2 = [] from rfl,
        List.nil_append]
      exact ih _ hne
    | ordDealloc p =>
      simp only [NeverEmpties] at hne
      simp only [cycleExec]
      rw [show (cycleStep cfg st (CycleOp.ordDealloc p)).2 = [] from rfl,
        List.nil_append]
      exact ih _ hne

/-- Claim C9: round trip.  After `deallocate(p)`, `allocate()` immediately
returns `p` again — restoring the original state — without any system request;
after `ordered_deallocate(p)`, `p` is back in the free list and a subsequent
allocation (the `k+1`-st `ordered_allocate`, `k` its free-list position)
returns `p`, all without system requests; and any allocate/deallocate workload
(either flavor) whose allocations always find a nonempty free list never
issues a system allocator request. -/
theorem round_trip_spec (cfg : Cfg) (st : Pool) (p : Nat) :
    pool_allocate cfg (pool_deallocate st p) none none = ⟨some p, st, []⟩ ∧
    p ∈ (pool_ordered_deallocate st p).freeList ∧
    (∃ k,
      (orderedAllocs cfg (k + 1) (pool_ordered_deallocate st p)).1.getLast? =
        some (some p) ∧
      (orderedAllocs cfg (k + 1) (pool_ordered_deallocate st p)).2.2 = []) ∧
    (∀ ops, NeverEmpties cfg st ops → (cycleExec cfg st ops).2 = []) := by
  refine ⟨rfl, ?_, ?_, ?_⟩
  · exact List.mem_append_right _ (List.mem_cons_self _ _)
  · exact ⟨(st.freeList.takeWhile (fun x => decide (x ≤ p))).length,
      orderedAllocs_getLast cfg (pool_ordered_deallocate st p)
        (st.freeList.takeWhile (fun x => decide (x ≤ p)))
        (st.freeList.dropWhile (fun x => decide (x ≤ p))) p rfl⟩
  · intro ops hne
    exact cycle_no_sys cfg ops st hne

/-- Witness for the round-trip theorem on a concrete pool: chunk 8 of a
two-chunk block, plus a two-operation cycle workload. -/
theorem round_trip_spec_witness :
    pool_allocate ⟨8, 8, 8, 8⟩
      (pool_deallocate ⟨[0, 16], [⟨0, 32⟩], 1, 1, 0⟩ 8) none none =
      ⟨some 8, ⟨[0, 16], [⟨0, 32⟩], 1, 1, 0⟩, []⟩ ∧
    (cycleExec ⟨8, 8, 8, 8⟩ ⟨[0, 16], [⟨0, 32⟩], 1, 1, 0⟩
      [CycleOp.alloc, CycleOp.dealloc 0]).2 = [] := by
  have h := round_trip_spec ⟨8, 8, 8, 8⟩ ⟨[0, 16], [⟨0, 32⟩], 1, 1, 0⟩ 8
  exact ⟨h.1, h.2.2.2 [CycleOp.alloc, CycleOp.dealloc 0] (by decide)⟩

/-! ### Claim C4: ordered invariant preservation -/

theorem chain_pairwise (b cs M : Nat) (hcs : 0 < cs) :
    ((List.range M).map (fun i => b + i * cs)).Pairwise (· < ·) := by
  refine List.Pairwise.map _ ?_ (List.pairwise_lt_range _)
  intro x y hxy
  have := (Nat.mul_lt_mul_right hcs).mpr hxy
  omega

theorem mem_ordered_deallocate_iff (p y : Nat) (fl : List Nat) :
    y ∈ ordered_deallocate_chunk p fl ↔ y = p ∨ y ∈ fl := by
  unfold ordered_deallocate_chunk
  constructor
  · intro h
    rcases List.mem_append.mp h with h1 | h2
    · exact Or.inr ((List.takeWhile_sublist _).subset h1)
    · rcases List.mem_cons.mp h2 with rfl | h3
      · exact Or.inl rfl
      · exact Or.inr ((List.dropWhile_sublist _).subset h3)
  · intro h
    rcases h with rfl | h2
    · exact List.mem_append_right _ (List.mem_cons_self _ _)
    · have hsplit := List.takeWhile_append_dropWhile
        (fun x => decide (x ≤ p)) fl
      rw [← hsplit] at h2
      rcases List.mem_append.mp h2 with h3 | h4
      · exact List.mem_append_left _ h3
      · exact List.mem_append_right _ (List.mem_cons_of_mem _ h4)

theorem pairwise_insert_chunk (p : Nat) :
    ∀ (fl : List Nat), fl.Pairwise (· < ·) → p ∉ fl →
      (ordered_deallocate_chunk p fl).Pairwise (· < ·) := by
  intro fl
  induction fl with
  | nil =>
    intro _ _
    exact List.pairwise_singleton _ _
  | cons x xs ih =>
    intro hfl hp
    obtain ⟨hhead, htail⟩ := List.pairwise_cons.mp hfl
    have hpx : p ≠ x := fun h => hp (h ▸ List.mem_cons_self _ _)
    have hpxs : p ∉ xs := fun h => hp (List.mem_cons_of_mem _ h)
    by_cases hx : x ≤ p
    · have hstep : ordered_deallocate_chunk p (x :: xs) =
          x :: ordered_deallocate_chunk p xs := by
        unfold ordered_deallocate_chunk
        rw [List.takeWhile_cons_of_pos (by simpa using hx),
          List.dropWhile_cons_of_pos (by simpa using hx), List.cons_append]
      rw [hstep]
      rw [List.pairwise_cons]
      refine ⟨?_, ih htail hpxs⟩
      intro y hy
      rcases (mem_ordered_deallocate_iff p y xs).mp hy with rfl | hyxs
      · omega
      · exact hhead y hyxs
    · have hstep : ordered_deallocate_chunk p (x :: xs) = p :: x :: xs := by
        unfold ordered_deallocate_chunk
        rw [List.takeWhile_cons_of_neg (by simpa using hx),
          List.dropWhile_cons_of_neg (by simpa using hx), List.nil_append]
      rw [hstep]
      rw [List.pairwise_cons]
      refine ⟨?_, hfl⟩
      intro y hy
      rcases List.mem_cons.mp hy with rfl | hyxs
      · omega
      · have := hhead y hyxs
        omega

theorem sorted_takeWhile_le (K : Nat) :
    ∀ (l : List Nat), l.Pairwise (· < ·) →
      l.takeWhile (fun x => decide (x ≤ K)) =
        l.filter (fun x => decide (x ≤ K)) ∧
      l.dropWhile (fun x => decide (x ≤ K)) =
        l.filter (fun x => decide (K < x)) := by
  intro l
  induction l with
  | nil => intro _; exact ⟨rfl, rfl⟩
  | cons x xs ih =>
    intro hp
    obtain ⟨hhead, htail⟩ := List.pairwise_cons.mp hp
    obtain ⟨iht, ihd⟩ := ih htail
    by_cases hx : x ≤ K
    · constructor
      · rw [List.takeWhile_cons_of_pos (by simpa using hx),
          List.filter_cons_of_pos (by simpa using hx), iht]
      · rw [List.dropWhile_cons_of_pos (by simpa using hx),
          List.filter_cons_of_neg (by simp only [decide_eq_true_eq]; omega),
          ihd]
    · have hall : ∀ y ∈ xs, K < y := by
        intro y hy
        have := hhead y hy
        omega
      constructor
      · rw [List.takeWhile_cons_of_neg (by simpa using hx)]
        symm
        rw [List.filter_eq_nil_iff]
        intro y hy
        simp only [decide_eq_true_eq]
        rcases List.mem_cons.mp hy with rfl | hy'
        · omega
        · have := hall y hy'; omega
      · rw [List.dropWhile_cons_of_neg (by simpa using hx),
          List.filter_cons_of_pos (by simp only [decide_eq_true_eq]; omega)]
        congr 1
        symm
        rw [List.filter_eq_self]
        intro y hy
        simpa using hall y hy

theorem add_ordered_block_spec (block sz partition : Nat) (fl : List Nat)
    (hpart : 0 < partition)
    (hfl : fl.Pairwise (· < ·))
    (hsep : ∀ y ∈ fl,
      y < block ∨ block + ((sz - partition) / partition) * partition < y) :
    (add_ordered_block block sz partition fl).Pairwise (· < ·) ∧
    (∀ y, y ∈ add_ordered_block block sz partition fl ↔
      y ∈ (List.range ((sz - partition) / partition + 1)).map
        (fun i => block + i * partition) ∨ y ∈ fl) := by
  obtain ⟨htake, hdrop⟩ := sorted_takeWhile_le block fl hfl
  have hrun_mem : ∀ y ∈ (List.range ((sz - partition) / partition + 1)).map
      (fun i => block + i * partition),
      block ≤ y ∧ y ≤ block + ((sz - partition) / partition) * partition := by
    intro y hy
    obtain ⟨i, hi, rfl⟩ := List.mem_map.mp hy
    have hi' := List.mem_range.mp hi
    constructor
    · exact Nat.le_add_right _ _
    · have : i * partition ≤ ((sz - partition) / partition) * partition :=
        Nat.mul_le_mul_right _ (by omega)
      omega
  have hsplit : add_ordered_block block sz partition fl =
      fl.filter (fun x => decide (x ≤ block)) ++
        ((List.range ((sz - partition) / partition + 1)).map
          (fun i => block + i * partition) ++
          fl.filter (fun x => decide (block < x))) := by
    unfold add_ordered_block segregate
    rw [htake, hdrop]
  constructor
  · rw [hsplit]
    rw [List.pairwise_append]
    refine ⟨hfl.filter _, ?_, ?_⟩
    · rw [List.pairwise_append]
      refine ⟨chain_pairwise _ _ _ hpart, hfl.filter _, ?_⟩
      intro a ha y hy
      obtain ⟨hyfl, hyb⟩ := List.mem_filter.mp hy
      simp only [decide_eq_true_eq] at hyb
      rcases hsep y hyfl with h1 | h1
      · omega
      · have := (hrun_mem a ha).2
        omega
    · intro x hx y hy
      obtain ⟨hxfl, hxb⟩ := List.mem_filter.mp hx
      simp only [decide_eq_true_eq] at hxb
      have hxlt : x < block := by
        rcases hsep x hxfl with h1 | h1
        · exact h1
        · have : x ≤ block + ((sz - partition) / partition) * partition := by
            omega
          omega
      rcases List.mem_append.mp hy with h1 | h2
      · have := (hrun_mem y h1).1
        omega
      · obtain ⟨hyfl, hyb⟩ := List.mem_filter.mp h2
        simp only [decide_eq_true_eq] at hyb
        omega
  · intro y
    rw [hsplit]
    constructor
    · intro h
      rcases List.mem_append.mp h with h1 | h2
      · exact Or.inr (List.mem_of_mem_filter h1)
      · rcases List.mem_append.mp h2 with h3 | h4
        · exact Or.inl h3
        · exact Or.inr (List.mem_of_mem_filter h4)
    · intro h
      rcases h with h1 | h2
      · exact List.mem_append_right _ (List.mem_append_left _ h1)
      · by_cases hyb : y ≤ block
        · refine List.mem_append_left _ ?_
          rw [List.mem_filter]
          exact ⟨h2, by simpa using hyb⟩
        · refine List.mem_append_right _ (List.mem_append_right _ ?_)
          rw [List.mem_filter]
          exact ⟨h2, by simp only [decide_eq_true_eq]; omega⟩


theorem blocks_disjoint {bl : List Block} (hbl : bl.Pairwise blockBefore) :
    ∀ b ∈ bl, ∀ b' ∈ bl, b ≠ b' → blockBefore b b' ∨ blockBefore b' b := by
  have hsym : Symmetric (fun a b : Block =>
      blockBefore a b ∨ blockBefore b a) := fun a b h => Or.symm h
  have h2 : bl.Pairwise (fun a b => blockBefore a b ∨ blockBefore b a) :=
    hbl.imp (fun h => Or.inl h)
  intro b hb b' hb' hne
  exact h2.forall hsym hb hb' hne

/-- Chunks of distinct blocks of a disjoint ordered block list never share an
address. -/
theorem blockChunks_disjoint (cfg : Cfg) (hok : cfg.ok) {bl : List Block}
    (hbl : bl.Pairwise blockBefore) {b b' : Block} (hb : b ∈ bl)
    (hb' : b' ∈ bl) {y : Nat} (hy : y ∈ blockChunks cfg b)
    (hy' : y ∈ blockChunks cfg b') : b = b' := by
  by_contra hne
  rcases blocks_disjoint hbl b hb b' hb' hne with h | h
  · have h1 := (blockChunks_bounds cfg hok b hy).2
    have h2 := blockChunks_lower cfg b' hy'
    have h3 := blockEnd_le_of_before cfg h
    omega
  · have h1 := (blockChunks_bounds cfg hok b' hy').2
    have h2 := blockChunks_lower cfg b hy
    have h3 := blockEnd_le_of_before cfg h
    omega

/-- A run of `NC` chunks of a block none of which is free separates the free
list: every free chunk lies strictly below its start or strictly above its
last chunk. -/
theorem fl_sep_of_run (cfg : Cfg) (hok : cfg.ok) {bl : List Block}
    {fl : List Nat} (hbl : bl.Pairwise blockBefore)
    (hcont : ∀ q ∈ fl, ∃ b' ∈ bl, q ∈ blockChunks cfg b')
    {b : Block} (hb : b ∈ bl) {p NC : Nat} (hNC : 0 < NC)
    (hrun : ∀ i < NC, p + i * alloc_size cfg ∈ blockChunks cfg b)
    (hnotfl : ∀ i < NC, p + i * alloc_size cfg ∉ fl) :
    ∀ y ∈ fl, y < p ∨ p + (NC - 1) * alloc_size cfg < y := by
  intro y hy
  by_contra hcon
  push_neg at hcon
  obtain ⟨hyp, hyend⟩ := hcon
  have has := alloc_size_pos cfg hok
  obtain ⟨b2, hb2, hyc⟩ := hcont y hy
  have hp0 := hrun 0 hNC
  have hplast := hrun (NC - 1) (by omega)
  simp only [Nat.zero_mul, Nat.add_zero] at hp0
  have hbeq : b2 = b := by
    by_contra hne
    rcases blocks_disjoint hbl b2 hb2 b hb hne with h | h
    · have h1 := (blockChunks_bounds cfg hok b2 hyc).2
      have h2 := blockChunks_lower cfg b hp0
      have h3 := blockEnd_le_of_before cfg h
      omega
    · have h1 := (blockChunks_bounds cfg hok b hplast).2
      have h2 := blockChunks_lower cfg b2 hyc
      have h3 := blockEnd_le_of_before cfg h
      omega
  subst hbeq
  obtain ⟨j, hj, hjeq⟩ := List.mem_map.mp hyc
  obtain ⟨i0, hi0, hi0eq⟩ := List.mem_map.mp hp0
  have hji : i0 ≤ j := by
    by_contra hlt
    push_neg at hlt
    have : j * alloc_size cfg < i0 * alloc_size cfg :=
      (Nat.mul_lt_mul_right has).mpr hlt
    omega
  have hyrun : y = p + (j - i0) * alloc_size cfg := by
    have h1 : (j - i0) * alloc_size cfg =
        j * alloc_size cfg - i0 * alloc_size cfg := Nat.sub_mul _ _ _
    have h2 : i0 * alloc_size cfg ≤ j * alloc_size cfg :=
      Nat.mul_le_mul_right _ hji
    omega
  have hjlt : j - i0 < NC := by
    by_contra hge
    push_neg at hge
    have h1 : NC * alloc_size cfg ≤ (j - i0) * alloc_size cfg :=
      Nat.mul_le_mul_right _ hge
    have h2 : ((NC - 1) + 1) * alloc_size cfg =
        (NC - 1) * alloc_size cfg + alloc_size cfg := Nat.succ_mul _ _
    have h3 : (NC - 1) + 1 = NC := by omega
    rw [h3] at h2
    omega
  exact hnotfl (j - i0) hjlt (hyrun ▸ hy)

theorem dropWhile_head_not {α : Type} (p : α → Bool) :
    ∀ (l : List α) (h : α) (t : List α), l.dropWhile p = h :: t →
      p h = false := by
  intro l
  induction l with
  | nil => intro h t hdw; exact absurd hdw (by simp)
  | cons x xs ih =>
    intro h t hdw
    by_cases hx : p x = true
    · rw [List.dropWhile_cons_of_pos hx] at hdw
      exact ih h t hdw
    · rw [List.dropWhile_cons_of_neg (by simpa using hx)] at hdw
      injection hdw with h1 _
      rw [← h1]
      simpa using hx

theorem pairwise_insertBlock (node : Block) (bl : List Block)
    (hbl : bl.Pairwise blockBefore) (hsize : 0 < node.size)
    (hfresh : ∀ b ∈ bl,
      node.start + node.size ≤ b.start ∨ b.start + b.size ≤ node.start) :
    (insertBlock node bl).Pairwise blockBefore ∧
    (∀ b, b ∈ insertBlock node bl ↔ b = node ∨ b ∈ bl) := by
  have hsplitbl : bl = bl.takeWhile (fun b => decide (b.start ≤ node.start)) ++
      bl.dropWhile (fun b => decide (b.start ≤ node.start)) :=
    (List.takeWhile_append_dropWhile _ _).symm
  have hcross : ∀ x ∈ bl.takeWhile (fun b => decide (b.start ≤ node.start)),
      ∀ y ∈ bl.dropWhile (fun b => decide (b.start ≤ node.start)),
        blockBefore x y := by
    have h2 : (bl.takeWhile (fun b => decide (b.start ≤ node.start)) ++
        bl.dropWhile (fun b => decide (b.start ≤ node.start))).Pairwise
          blockBefore := by
      rw [← hsplitbl]; exact hbl
    exact (List.pairwise_append.mp h2).2.2
  have htakele : ∀ x ∈ bl.takeWhile (fun b => decide (b.start ≤ node.start)),
      blockBefore x node := by
    intro x hx
    have hxb : x ∈ bl := (List.takeWhile_sublist _).subset hx
    have hxle : x.start ≤ node.start := by
      have := List.mem_takeWhile_imp hx
      simpa using this
    rcases hfresh x hxb with h | h
    · unfold blockBefore
      omega
    · exact h
  have hdropge : ∀ y ∈ bl.dropWhile (fun b => decide (b.start ≤ node.start)),
      blockBefore node y := by
    intro y hy
    cases hdw : bl.dropWhile (fun b => decide (b.start ≤ node.start)) with
    | nil => rw [hdw] at hy; exact absurd hy (List.not_mem_nil _)
    | cons h t =>
      have hhb : h ∈ bl := by
        have hmem : h ∈ bl.dropWhile (fun b => decide (b.start ≤ node.start)) := by
          rw [hdw]; exact List.mem_cons_self _ _
        exact (List.dropWhile_sublist _).subset hmem
      have hhead : ¬ (h.start ≤ node.start) := by
        have hh := dropWhile_head_not _ bl h t hdw
        simpa using hh
      have hnodeh : blockBefore node h := by
        rcases hfresh h hhb with h1 | h1
        · exact h1
        · unfold blockBefore
          omega
      rw [hdw] at hy
      rcases List.mem_cons.mp hy with rfl | hyt
      · exact hnodeh
      · have hpw : (bl.dropWhile
            (fun b => decide (b.start ≤ node.start))).Pairwise blockBefore :=
          hbl.sublist (List.dropWhile_sublist _)
        rw [hdw] at hpw
        have hhy := (List.pairwise_cons.mp hpw).1 y hyt
        unfold blockBefore at hhy hnodeh ⊢
        omega
  constructor
  · unfold insertBlock
    rw [List.pairwise_append]
    refine ⟨hbl.sublist (List.takeWhile_sublist _), ?_, ?_⟩
    · rw [List.pairwise_cons]
      exact ⟨hdropge, hbl.sublist (List.dropWhile_sublist _)⟩
    · intro x hx y hy
      rcases List.mem_cons.mp hy with rfl | hyt
      · exact htakele x hx
      · exact hcross x hx y hyt
  · intro b
    unfold insertBlock
    constructor
    · intro h
      rcases List.mem_append.mp h with h1 | h2
      · exact Or.inr ((List.takeWhile_sublist _).subset h1)
      · rcases List.mem_cons.mp h2 with rfl | h3
        · exact Or.inl rfl
        · exact Or.inr ((List.dropWhile_sublist _).subset h3)
    · intro h
      rcases h with rfl | h2
      · exact List.mem_append_right _ (List.mem_cons_self _ _)
      · rw [hsplitbl] at h2
        rcases List.mem_append.mp h2 with h3 | h4
        · exact List.mem_append_left _ h3
        · exact List.mem_append_right _ (List.mem_cons_of_mem _ h4)

theorem elementSize_pod (cfg : Cfg) (a ns : Nat) :
    elementSize cfg ⟨a, pod_size cfg ns⟩ = ns * alloc_size cfg := by
  unfold elementSize pod_size
  dsimp only
  omega

theorem blockChunks_pod (cfg : Cfg) (hok : cfg.ok) (a ns : Nat) :
    blockChunks cfg ⟨a, pod_size cfg ns⟩ =
      (List.range ns).map (fun i => a + i * alloc_size cfg) := by
  unfold blockChunks
  rw [elementSize_pod, Nat.mul_div_cancel _ (alloc_size_pos cfg hok)]

theorem blockWF_pod (cfg : Cfg) (_hok : cfg.ok) (a ns : Nat) (hns : 0 < ns) :
    BlockWF cfg ⟨a, pod_size cfg ns⟩ := by
  constructor
  · unfold pod_size
    dsimp only
    have : alloc_size cfg ≤ ns * alloc_size cfg :=
      Nat.le_mul_of_pos_left _ hns
    omega
  · rw [elementSize_pod]
    exact dvd_mul_left _ _

theorem run_count_arith (m as : Nat) (has : 0 < as) :
    (m * as - as) / as + 1 = max m 1 := by
  have h1 : m * as - as = (m - 1) * as := by
    rw [Nat.sub_mul, Nat.one_mul]
  rw [h1, Nat.mul_div_cancel _ has]
  omega


theorem pod_size_pos (cfg : Cfg) (hok : cfg.ok) (ns : Nat) :
    0 < pod_size cfg ns := by
  obtain ⟨_, h2, h3, _⟩ := hok
  unfold pod_size
  omega

/-- Well-formedness is preserved by the success tail of
`ordered_allocate_need_resize`, which is only reached with an empty free
list. -/
theorem ordered_resize_success_WF (cfg : Cfg) (hok : cfg.ok) (st : Pool)
    (ns a : Nat) (reqs : List Nat) (hns : 0 < ns) (hwf : st.WF cfg)
    (hfle : st.freeList = [])
    (hfresh : FreshBlock st a (pod_size cfg ns)) :
    ((ordered_resize_success cfg st ns a reqs).state).WF cfg := by
  obtain ⟨hfl, hbl, hbwf, hcont⟩ := hwf
  have has := alloc_size_pos cfg hok
  have hfl' : add_ordered_block a (elementSize cfg ⟨a, pod_size cfg ns⟩)
      (alloc_size cfg) st.freeList = blockChunks cfg ⟨a, pod_size cfg ns⟩ := by
    rw [hfle]
    unfold add_ordered_block segregate
    rw [List.takeWhile_nil, List.dropWhile_nil, List.nil_append,
      List.append_nil, elementSize_pod, run_count_arith _ _ has,
      blockChunks_pod cfg hok, show max ns 1 = ns by omega]
  obtain ⟨hbpw, hbmem⟩ := pairwise_insertBlock ⟨a, pod_size cfg ns⟩ st.blocks
    hbl (pod_size_pos cfg hok ns) hfresh
  have hbwf' : ∀ b ∈ insertBlock ⟨a, pod_size cfg ns⟩ st.blocks,
      BlockWF cfg b := by
    intro b hb
    rcases (hbmem b).mp hb with rfl | hmem
    · exact blockWF_pod cfg hok a ns hns
    · exact hbwf b hmem
  have hchain : (blockChunks cfg ⟨a, pod_size cfg ns⟩).Pairwise (· < ·) := by
    rw [blockChunks_pod cfg hok]
    exact chain_pairwise _ _ _ has
  simp only [ordered_resize_success]
  rw [hfl']
  cases hm : blockChunks cfg ⟨a, pod_size cfg ns⟩ with
  | nil => exact ⟨hfl, hbl, hbwf, hcont⟩
  | cons h t =>
    rw [hm] at hchain
    refine ⟨(List.pairwise_cons.mp hchain).2, hbpw, hbwf', ?_⟩
    intro y hy
    refine ⟨⟨a, pod_size cfg ns⟩, (hbmem _).mpr (Or.inl rfl), ?_⟩
    rw [hm]
    exact List.mem_cons_of_mem _ hy

/-- Well-formedness is preserved by the success tail of
`pool::ordered_allocate(n)`. -/
theorem ordered_alloc_n_success_WF (cfg : Cfg) (hok : cfg.ok) (st : Pool)
    (NC a : Nat) (reqs : List Nat) (hns : 0 < st.next_size)
    (hwf : st.WF cfg)
    (hfresh : FreshBlock st a (pod_size cfg st.next_size)) :
    ((ordered_alloc_n_success cfg st NC a reqs).state).WF cfg := by
  obtain ⟨hfl, hbl, hbwf, hcont⟩ := hwf
  have has := alloc_size_pos cfg hok
  obtain ⟨hbpw, hbmem⟩ := pairwise_insertBlock ⟨a, pod_size cfg st.next_size⟩
    st.blocks hbl (pod_size_pos cfg hok st.next_size) hfresh
  have hbwf' : ∀ b ∈ insertBlock ⟨a, pod_size cfg st.next_size⟩ st.blocks,
      BlockWF cfg b := by
    intro b hb
    rcases (hbmem b).mp hb with rfl | hmem
    · exact blockWF_pod cfg hok a st.next_size hns
    · exact hbwf b hmem
  simp only [ordered_alloc_n_success]
  by_cases hrem : NC < st.next_size
  · rw [if_pos hrem]
    have hsz_eq : elementSize cfg ⟨a, pod_size cfg st.next_size⟩ -
        NC * alloc_size cfg = (st.next_size - NC) * alloc_size cfg := by
      rw [elementSize_pod, Nat.sub_mul]
    have hMar := run_count_arith (st.next_size - NC) (alloc_size cfg) has
    have hM : ((st.next_size - NC) * alloc_size cfg - alloc_size cfg) /
        alloc_size cfg = st.next_size - NC - 1 := by
      omega
    have hsep : ∀ y ∈ st.freeList, y < a + NC * alloc_size cfg ∨
        a + NC * alloc_size cfg +
          ((elementSize cfg ⟨a, pod_size cfg st.next_size⟩ -
            NC * alloc_size cfg - alloc_size cfg) / alloc_size cfg) *
            alloc_size cfg < y := by
      intro y hy
      obtain ⟨b2, hb2, hyc⟩ := hcont y hy
      have hy1 := blockChunks_lower cfg b2 hyc
      have hy2 := (blockChunks_bounds cfg hok b2 hyc).2
      have hy3 : blockEnd cfg b2 ≤ b2.start + b2.size := by
        unfold blockEnd elementSize
        omega
      rw [hsz_eq, hM]
      rcases hfresh b2 hb2 with h1 | h1
      · right
        have e1 : NC * alloc_size cfg +
            (st.next_size - NC - 1) * alloc_size cfg =
            (st.next_size - 1) * alloc_size cfg := by
          rw [← Nat.add_mul]
          congr 1
          omega
        have e2 : (st.next_size - 1) * alloc_size cfg + alloc_size cfg =
            st.next_size * alloc_size cfg := by
          rw [← Nat.succ_mul]
          congr 1
          omega
        have e3 : st.next_size * alloc_size cfg ≤ pod_size cfg st.next_size := by
          unfold pod_size
          omega
        omega
      · left
        omega
    obtain ⟨hflpw, hflmem⟩ := add_ordered_block_spec (a + NC * alloc_size cfg)
      (elementSize cfg ⟨a, pod_size cfg st.next_size⟩ - NC * alloc_size cfg)
      (alloc_size cfg) st.freeList has hfl hsep
    refine ⟨hflpw, hbpw, hbwf', ?_⟩
    intro y hy
    rcases (hflmem y).mp hy with hrun | hold
    · refine ⟨⟨a, pod_size cfg st.next_size⟩, (hbmem _).mpr (Or.inl rfl), ?_⟩
      obtain ⟨i, hi, hieq⟩ := List.mem_map.mp hrun
      have hi' := List.mem_range.mp hi
      rw [hsz_eq, hM] at hi'
      rw [blockChunks_pod cfg hok]
      refine List.mem_map.mpr ⟨NC + i, List.mem_range.mpr (by omega), ?_⟩
      rw [← hieq]
      ring
    · obtain ⟨b2, hb2, hyc⟩ := hcont y hold
      exact ⟨b2, (hbmem b2).mpr (Or.inr hb2), hyc⟩
  · rw [if_neg hrem]
    refine ⟨hfl, hbpw, hbwf', ?_⟩
    intro y hy
    obtain ⟨b2, hb2, hyc⟩ := hcont y hy
    exact ⟨b2, (hbmem b2).mpr (Or.inr hb2), hyc⟩


theorem allocate_n_some_decomp (n cs : Nat) (fl : List Nat) (r : Nat)
    (fl' : List Nat) (h : allocate_n n cs fl = some (r, fl')) :
    ∃ pre post,
      fl = pre ++ (List.range n).map (fun i => r + i * cs) ++ post ∧
      fl' = pre ++ post := by
  by_cases hn : n = 0
  · rw [allocate_n, if_pos hn] at h
    exact absurd h (by simp)
  · rw [allocate_n, if_neg hn] at h
    exact allocate_n_go_some cs n hn _ fl r fl' h

/-- Every contract-valid ordered operation preserves the pool's ordered-mode
well-formedness invariant. -/
theorem stepOrdered_WF (cfg : Cfg) (hok : cfg.ok) (st : Pool) (op : OrderedOp)
    (hwf : st.WF cfg) (hv : ValidOp cfg st op) :
    (stepOrdered cfg st op).WF cfg := by
  obtain ⟨hfl, hbl, hbwf, hcont⟩ := hwf
  cases op with
  | dealloc p =>
    obtain ⟨hpfl, b, hb, hpc⟩ := hv
    refine ⟨?_, hbl, hbwf, ?_⟩
    · exact pairwise_insert_chunk p st.freeList hfl hpfl
    · intro y hy
      rcases (mem_ordered_deallocate_iff p y st.freeList).mp hy with rfl | h2
      · exact ⟨b, hb, hpc⟩
      · exact hcont y h2
  | deallocN p n =>
    have has := alloc_size_pos cfg hok
    simp only [stepOrdered, pool_ordered_deallocate_n]
    by_cases hNC0 :
        fast_ceil_division (n * cfg.requested_size) (alloc_size cfg) = 0
    · rw [if_pos hNC0]
      exact ⟨hfl, hbl, hbwf, hcont⟩
    · rw [if_neg hNC0]
      rcases hv with h0 | ⟨hnot, b, hb, hrun⟩
      · exact absurd h0 hNC0
      · have hNCpos : 0 <
            fast_ceil_division (n * cfg.requested_size) (alloc_size cfg) :=
          Nat.pos_of_ne_zero hNC0
        have hsep0 := fl_sep_of_run cfg hok hbl hcont hb hNCpos hrun hnot
        have harith := run_count_arith
          (fast_ceil_division (n * cfg.requested_size) (alloc_size cfg))
          (alloc_size cfg) has
        have hsep : ∀ y ∈ st.freeList,
            y < p ∨
            p + ((fast_ceil_division (n * cfg.requested_size) (alloc_size cfg) *
                alloc_size cfg - alloc_size cfg) / alloc_size cfg) *
              alloc_size cfg < y := by
          intro y hy
          have hM : (fast_ceil_division (n * cfg.requested_size)
              (alloc_size cfg) * alloc_size cfg - alloc_size cfg) /
              alloc_size cfg =
              fast_ceil_division (n * cfg.requested_size) (alloc_size cfg) -
                1 := by omega
          rw [hM]
          exact hsep0 y hy
        obtain ⟨hflpw, hflmem⟩ := add_ordered_block_spec p
          (fast_ceil_division (n * cfg.requested_size) (alloc_size cfg) *
            alloc_size cfg)
          (alloc_size cfg) st.freeList has hfl hsep
        refine ⟨hflpw, hbl, hbwf, ?_⟩
        intro y hy
        rcases (hflmem y).mp hy with hr | hold
        · obtain ⟨i, hi, hieq⟩ := List.mem_map.mp hr
          have hi' := List.mem_range.mp hi
          have hilt : i <
              fast_ceil_division (n * cfg.requested_size) (alloc_size cfg) := by
            omega
          exact ⟨b, hb, hieq ▸ hrun i hilt⟩
        · exact hcont y hold
  | release =>
    obtain ⟨hsub, hfil, honly, hret⟩ :=
      release_sweep_spec cfg hok st.blocks st.freeList hfl hbl hbwf hcont
    refine ⟨?_, hbl.sublist hsub, ?_, ?_⟩
    · show ((release_sweep cfg st.blocks st.freeList).2.1).Pairwise (· < ·)
      rw [hfil]
      exact hfl.filter _
    · intro b hb
      exact hbwf b (hsub.subset hb)
    · intro y hy
      show ∃ b ∈ (release_sweep cfg st.blocks st.freeList).1,
        y ∈ blockChunks cfg b
      have hy' : y ∈ (release_sweep cfg st.blocks st.freeList).2.1 := hy
      rw [hfil] at hy'
      obtain ⟨hyfl, hyc⟩ := List.mem_filter.mp hy'
      unfold chunkOfAny at hyc
      rw [List.any_eq_true] at hyc
      obtain ⟨b, hb, hc⟩ := hyc
      exact ⟨b, hb, (contains_iff _ _).mp hc⟩
  | alloc r1 r2 =>
    simp only [stepOrdered]
    cases hflc : st.freeList with
    | cons x xs =>
      rw [pool_ordered_allocate, hflc]
      rw [hflc] at hfl
      refine ⟨(List.pairwise_cons.mp hfl).2, hbl, hbwf, ?_⟩
      intro y hy
      exact hcont y (hflc ▸ List.mem_cons_of_mem _ hy)
    | nil =>
      rcases hv with hne | ⟨hns, hfr1, hfr2⟩
      · exact absurd hflc hne
      · rw [pool_ordered_allocate, hflc]
        cases r1 with
        | some a =>
          simp only [ordered_allocate_need_resize]
          exact ordered_resize_success_WF cfg hok st st.next_size a _ hns
            ⟨hfl, hbl, hbwf, hcont⟩ hflc (hfr1 a rfl)
        | none =>
          simp only [ordered_allocate_need_resize]
          by_cases h4 : 4 < st.next_size
          · rw [if_pos h4]
            cases r2 with
            | some a =>
              have hns2 : 0 < st.next_size / 2 := by omega
              exact ordered_resize_success_WF cfg hok
                { st with next_size := st.next_size / 2 } (st.next_size / 2) a _
                hns2 ⟨hfl, hbl, hbwf, hcont⟩ hflc (hfr2 rfl a rfl)
            | none => exact ⟨hfl, hbl, hbwf, hcont⟩
          · rw [if_neg h4]
            exact ⟨hfl, hbl, hbwf, hcont⟩
  | allocN n r1 r2 =>
    simp only [stepOrdered, ordered_allocate_n]
    cases hsc : allocate_n
        (fast_ceil_division (n * cfg.requested_size) (alloc_size cfg))
        (alloc_size cfg) st.freeList with
    | some pair =>
      obtain ⟨r, fl2⟩ := pair
      obtain ⟨pre, post, hdec, hdec2⟩ := allocate_n_some_decomp _ _ _ _ _ hsc
      have hsubfl : fl2.Sublist st.freeList := by
        rw [hdec, hdec2, List.append_assoc]
        exact (List.sublist_append_right _ _).append_left _
      refine ⟨hfl.sublist hsubfl, hbl, hbwf, ?_⟩
      intro y hy
      exact hcont y (hsubfl.subset hy)
    | none =>
      by_cases hn0 : n = 0
      · rw [if_pos hn0]
        exact ⟨hfl, hbl, hbwf, hcont⟩
      · rw [if_neg hn0]
        have hNCpos : 0 <
            fast_ceil_division (n * cfg.requested_size) (alloc_size cfg) :=
          fast_ceil_division_pos cfg hok
            (Nat.mul_pos (Nat.pos_of_ne_zero hn0) hok.1)
        rcases hv with hvs | hv0 | ⟨hfr1, hfr2⟩
        · exact absurd hsc hvs
        · exact absurd hv0 hn0
        · cases r1 with
          | some a =>
            exact ordered_alloc_n_success_WF cfg hok _ _ a _
              (lt_of_lt_of_le hNCpos (le_max_right _ _))
              ⟨hfl, hbl, hbwf, hcont⟩ (hfr1 a rfl)
          | none =>
            by_cases hlt :
                fast_ceil_division (n * cfg.requested_size) (alloc_size cfg) <
                  max st.next_size
                    (fast_ceil_division (n * cfg.requested_size)
                      (alloc_size cfg)) 
            · rw [if_pos hlt]
              cases r2 with
              | some a =>
                exact ordered_alloc_n_success_WF cfg hok _ _ a _
                  (lt_of_lt_of_le hNCpos (le_max_right _ _))
                  ⟨hfl, hbl, hbwf, hcont⟩ (hfr2 rfl a rfl)
              | none => exact ⟨hfl, hbl, hbwf, hcont⟩
            · rw [if_neg hlt]
              exact ⟨hfl, hbl, hbwf, hcont⟩


theorem execOrdered_WF (cfg : Cfg) (hok : cfg.ok) (st : Pool)
    (ops : List OrderedOp) (hseq : ValidSeq cfg st ops) (hwf : st.WF cfg) :
    (execOrdered cfg st ops).WF cfg := by
  revert hwf
  induction hseq with
  | nil st => exact fun hwf => hwf
  | cons st op ops hv _ ih =>
    exact fun hwf => ih (stepOrdered_WF cfg hok st op hwf hv)

theorem blockBefore_starts (cfg : Cfg) (hok : cfg.ok) (bs : List Block)
    (hpw : bs.Pairwise blockBefore) (hwf : ∀ b ∈ bs, BlockWF cfg b) :
    (bs.map Block.start).Pairwise (· < ·) := by
  rw [List.pairwise_map]
  refine hpw.imp_of_mem fun {a b} ha hb hab => ?_
  have hsz := (hwf a ha).1
  have has := alloc_size_pos cfg hok
  unfold blockBefore at hab
  omega

/-- Claim C4: for every sequence of contract-valid ordered operations
(ordered_allocate, ordered_allocate(n), ordered_deallocate,
ordered_deallocate(p, n), release_memory) run from a well-formed pool,
walking the resulting free list yields strictly ascending addresses and
walking the resulting block list yields strictly ascending block-start
addresses. -/
theorem ordered_ops_preserve_order (cfg : Cfg) (st : Pool)
    (ops : List OrderedOp) (hok : cfg.ok) (hwf : st.WF cfg)
    (hseq : ValidSeq cfg st ops) :
    (execOrdered cfg st ops).freeList.Pairwise (· < ·) ∧
    ((execOrdered cfg st ops).blocks.map Block.start).Pairwise (· < ·) := by
  obtain ⟨h1, h2, h3, _⟩ := execOrdered_WF cfg hok st ops hseq hwf
  exact ⟨h1, blockBefore_starts cfg hok _ h2 h3⟩

theorem ordered_ops_preserve_order_witness :
    Cfg.ok ⟨8, 8, 8, 8⟩ ∧
    Pool.WF ⟨8, 8, 8, 8⟩ ⟨[], [], 4, 4, 0⟩ ∧
    ValidSeq ⟨8, 8, 8, 8⟩ ⟨[], [], 4, 4, 0⟩
      [.alloc (some 100) none, .dealloc 100, .release] ∧
    ((execOrdered ⟨8, 8, 8, 8⟩ ⟨[], [], 4, 4, 0⟩
        [.alloc (some 100) none, .dealloc 100, .release]).freeList.Pairwise
        (· < ·) ∧
      ((execOrdered ⟨8, 8, 8, 8⟩ ⟨[], [], 4, 4, 0⟩
        [.alloc (some 100) none, .dealloc 100, .release]).blocks.map
        Block.start).Pairwise (· < ·)) := by
  have hok : Cfg.ok ⟨8, 8, 8, 8⟩ := by decide
  have hwf : Pool.WF ⟨8, 8, 8, 8⟩ ⟨[], [], 4, 4, 0⟩ := by decide
  have hseq : ValidSeq ⟨8, 8, 8, 8⟩ ⟨[], [], 4, 4, 0⟩
      [.alloc (some 100) none, .dealloc 100, .release] :=
    .cons _ _ _ (by decide)
      (.cons _ _ _ (by decide)
        (.cons _ _ _ (by decide) (.nil _)))
  exact ⟨hok, hwf, hseq,
    ordered_ops_preserve_order ⟨8, 8, 8, 8⟩ ⟨[], [], 4, 4, 0⟩
      [.alloc (some 100) none, .dealloc 100, .release] hok hwf hseq⟩

end PoolAlloc
